import Mathlib

/-!
Verification of the yanshuf inspection/export core.

Shallow embedding of the two core modules:
  * the inspection store (`src/lib/stores/inspection.svelte.ts`): the DC
    measurement forest and its mutation operations;
  * the Excel exporter (`src/lib/mappers/excel.ts`): the stripe baker, the
    four sheet fillers and the export orchestrator.

Worksheets are modelled as total functions from (row, column) to cells;
cell values are strings or integers; styles are modelled field by field so
that the baker's whole-style assignment is visible.  Recursive walks that
the JavaScript source performs by unbounded recursion (the DFS tree walk,
the descendant collection, the depth loop) are modelled with an explicit
fuel of `length + 1`, which is enough on every input on which the source
terminates.
-/

namespace Yanshuf

/-- A spreadsheet cell value: ExcelJS values written by this code are
strings or numbers; numbers are modelled as integers. -/
inductive Value where
  | s (v : String)
  | n (v : Int)
deriving DecidableEq, Repr

/-- A pattern fill object as written by the baker:
`{ type, pattern, fgColor: {argb}, bgColor: {argb} }`. -/
structure FillObj where
  type : String
  pattern : String
  fgColor : String
  bgColor : String
deriving DecidableEq, Repr

/-- A cell: a value plus the style sub-objects the exporter touches.  The
opaque style sub-objects (font, alignment, border, numFmt) are modelled as
optional strings; `none` is JavaScript `undefined`. -/
structure Cell where
  value : Option Value
  numFmt : Option String
  font : Option String
  alignment : Option String
  border : Option String
  fill : Option FillObj
deriving DecidableEq, Repr

/-- An Excel table object; the exporter only reads its name. -/
structure TableObj where
  name : String
deriving DecidableEq, Repr

/-- A worksheet: a name, a row count and a total cell assignment
(1-indexed rows and columns), plus the sheet's table objects. -/
structure Worksheet where
  name : String
  rowCount : Nat
  cells : Nat → Nat → Cell
  tables : List TableObj

/-- `ws.getCell(r, c)`. -/
def Worksheet.getCell (ws : Worksheet) (r c : Nat) : Cell :=
  ws.cells r c

/-- Replace the whole cell at (r, c); used for both value writes and the
baker's whole-style writes. -/
def Worksheet.putCell (ws : Worksheet) (r c : Nat) (cell : Cell) : Worksheet :=
  { ws with cells := fun r' c' => if r' = r ∧ c' = c then cell else ws.cells r' c' }

/-- `String(v ?? '')`: the text of a cell value as JavaScript coerces it. -/
def cellText (v : Option Value) : String :=
  match v with
  | none => ""
  | some (Value.s s) => s
  | some (Value.n k) => toString k

-- ── Stripe baker (excel.ts) ──────────────────────────────────────

/-- `hasSolidFill`: the cell already has an explicit solid pattern fill. -/
def hasSolidFill (cell : Cell) : Bool :=
  match cell.fill with
  | some fill => fill.type == "pattern" && fill.pattern == "solid"
  | none => false

/-- The two fixed stripe ARGB colors, chosen by the running stripe index. -/
def stripeColor (stripeIndex : Nat) : String :=
  if stripeIndex % 2 == 0 then "FFD9E2F3" else "FFB4C6E7"

/-- The whole new style written by the baker: font/alignment/border copied
from the old cell (an absent sub-object becomes an empty object), the fill
replaced by a solid stripe fill, the value kept, every other style field
(numFmt) absent because the assigned style object does not contain it. -/
def restyled (cell : Cell) (color : String) : Cell :=
  { value := cell.value
    numFmt := none
    font := some (cell.font.getD "")
    alignment := some (cell.alignment.getD "")
    border := some (cell.border.getD "")
    fill := some { type := "pattern", pattern := "solid", fgColor := color, bgColor := color } }

/-- Phase-2 inner loop: write the stripe style to columns 1..colCount of
row `r`. -/
def applyStripeRow (r : Nat) (color : String) : Nat → Worksheet → Worksheet
  | 0, ws => ws
  | colCount + 1, ws =>
    let ws' := applyStripeRow r color colCount ws
    ws'.putCell r (colCount + 1) (restyled (ws'.getCell r (colCount + 1)) color)

/-- Phase-2 outer loop over the remaining rows, carrying the running
stripe index (which advances for flagged rows too). -/
def bakeRows (rowHasFill : List Nat) (colCount : Nat) :
    List Nat → Nat → Worksheet → Worksheet
  | [], _, ws => ws
  | r :: rest, stripeIndex, ws =>
    let ws' := if rowHasFill.contains r then ws
               else applyStripeRow r (stripeColor stripeIndex) colCount ws
    bakeRows rowHasFill colCount rest (stripeIndex + 1) ws'

/-- `bakeTableStripes(ws, startRow, endRow, colCount)`: phase 1 records the
rows of [startRow, endRow] whose column-1 cell already has a solid fill;
phase 2 walks the same range again, striping every unflagged row with the
alternating color while the index advances over all rows. -/
def bakeTableStripes (ws : Worksheet) (startRow endRow colCount : Nat) : Worksheet :=
  let rows := List.range' startRow (endRow + 1 - startRow)
  let rowHasFill := rows.filter (fun r => hasSolidFill (ws.getCell r 1))
  bakeRows rowHasFill colCount rows 0 ws

-- ── Inspection data model (src/lib/models/inspection.ts, by usage) ──

/-- A DC string measurement.  `id` is the generated unique id, `parentId`
links a child to its parent, numeric fields are optional (modelled as
optional integers). -/
structure DcStringMeasurement where
  id : String
  parentId : Option String
  inverterIndex : Nat
  stringLabel : String
  panelCount : Option Int
  openCircuitVoltage : Option Int
  operatingCurrent : Option Int
  stringRiso : Option Int
  feedRisoNegative : Option Int
  feedRisoPositive : Option Int
deriving DecidableEq, Repr

structure InverterConfig where
  index : Nat
  label : String
  stringCount : Nat
deriving DecidableEq, Repr

structure InverterSerial where
  inverterIndex : Nat
  serialNumber : String
deriving DecidableEq, Repr

structure ChecklistItem where
  sectionCode : String
  description : String
  status : String
  notes : String
deriving DecidableEq, Repr

structure AcMeasurement where
  itemCode : String
  result : Option Value
  notes : String
deriving DecidableEq, Repr

structure Defect where
  component : String
  fault : String
  location : String
  status : String
deriving DecidableEq, Repr

structure InspectionMeta where
  siteName : String
  inspectionDate : String
  inspectorName : String
  signatureText : String
deriving DecidableEq, Repr

structure Inspection where
  meta : InspectionMeta
  inverterConfigs : List InverterConfig
  checklist : List ChecklistItem
  dcMeasurements : List DcStringMeasurement
  acMeasurements : List AcMeasurement
  inverterSerials : List InverterSerial
  defects : List Defect
deriving DecidableEq, Repr

-- ── Store operations (inspection.svelte.ts) ──────────────────────

/-- The top-level string label alphabet. -/
def STRING_LABELS : String := "ABCDEFGHIJKLMNOPQRSTUVWXYZ"

/-- `STRING_LABELS[i] || ('S' + (i+1))`: a single letter for the first 26
indices, the fallback label otherwise. -/
def stringLabelFor (i : Nat) : String :=
  match STRING_LABELS.toList.get? i with
  | some ch => String.singleton ch
  | none => "S" ++ toString (i + 1)

/-- `createDcMeasurement(inverterIndex, stringLabel, parentId)`.  The
source draws `id` from `crypto.randomUUID()`; the fresh id is passed in
explicitly here. -/
def createDcMeasurement (id : String) (inverterIndex : Nat) (stringLabel : String)
    (parentId : Option String := none) : DcStringMeasurement :=
  { id := id
    parentId := parentId
    inverterIndex := inverterIndex
    stringLabel := stringLabel
    panelCount := none
    openCircuitVoltage := none
    operatingCurrent := none
    stringRiso := none
    feedRisoNegative := none
    feedRisoPositive := none }

/-- `generateDcMeasurements(configs)`: one fresh root per string of every
config.  `idGen inv i` stands for the UUID drawn for string `i` of the
inverter with index `inv`. -/
def generateDcMeasurements (configs : List InverterConfig)
    (idGen : Nat → Nat → String) : List DcStringMeasurement :=
  configs.flatMap (fun inv =>
    (List.range inv.stringCount).map (fun i =>
      createDcMeasurement (idGen inv.index i) inv.index (stringLabelFor i)))

/-- `childrenOf(parentId)` inside `getOrderedDcTree`. -/
def childrenOf (forInverter : List DcStringMeasurement) (parentId : Option String) :
    List DcStringMeasurement :=
  forInverter.filter (fun m => m.parentId == parentId)

/-- The recursive `walk(parentId, depth)` of `getOrderedDcTree`, with an
explicit fuel bounding the recursion depth (the source recurses without a
bound and diverges on inputs with unresolvable-by-id cycles; on every
input on which it terminates a fuel of `forInverter.length + 1` is
enough). -/
def walkDc (forInverter : List DcStringMeasurement) :
    Nat → Option String → Nat → List (DcStringMeasurement × Nat)
  | 0, _, _ => []
  | fuel + 1, parentId, depth =>
    (childrenOf forInverter parentId).flatMap (fun m =>
      (m, depth) :: walkDc forInverter fuel (some m.id) (depth + 1))

/-- `getOrderedDcTree(measurements, inverterIndex)`: that inverter's
measurements in depth-first tree order, each with its depth. -/
def getOrderedDcTree (measurements : List DcStringMeasurement) (inverterIndex : Nat) :
    List (DcStringMeasurement × Nat) :=
  let forInverter := measurements.filter (fun m => m.inverterIndex == inverterIndex)
  walkDc forInverter (forInverter.length + 1) none 0

/-- `getDescendantIds(measurements, parentId)`: all descendant ids of a
measurement, recursively, with the same fuel convention as `walkDc`. -/
def getDescendantIds (measurements : List DcStringMeasurement) :
    Nat → String → List String
  | 0, _ => []
  | fuel + 1, parentId =>
    measurements.flatMap (fun m =>
      if m.parentId == some parentId then
        m.id :: getDescendantIds measurements fuel m.id
      else [])

/-- `nextChildLabel(measurements, parentId, parentLabel)`:
`parentLabel.(siblingCount + 1)`. -/
def nextChildLabel (measurements : List DcStringMeasurement) (parentId : String)
    (parentLabel : String) : String :=
  let siblings := measurements.filter (fun m => m.parentId == some parentId)
  parentLabel ++ "." ++ toString (siblings.length + 1)

/-- `nextTopLevelLabel(measurements, inverterIndex)`. -/
def nextTopLevelLabel (measurements : List DcStringMeasurement) (inverterIndex : Nat) : String :=
  let topLevel := measurements.filter
    (fun m => m.inverterIndex == inverterIndex && m.parentId == none)
  let usedLetters := topLevel.map (fun m => m.stringLabel)
  match (List.range STRING_LABELS.length).find?
      (fun i => !(usedLetters.contains (stringLabelFor i))) with
  | some i => stringLabelFor i
  | none => "S" ++ toString (topLevel.length + 1)

/-- `generateInverterSerials(configs)`. -/
def generateInverterSerials (configs : List InverterConfig) : List InverterSerial :=
  configs.map (fun inv => { inverterIndex := inv.index, serialNumber := "" })

/-- `setInverterConfigs(count, defaultStrings)`: rebuild the configs
(keeping the label/stringCount of a surviving index), then regenerate the
measurements and the serials. -/
def setInverterConfigs (insp : Inspection) (count : Nat) (defaultStrings : Nat)
    (idGen : Nat → Nat → String) : Inspection :=
  let existing := insp.inverterConfigs
  let configs : List InverterConfig := (List.range count).map (fun i =>
    { index := i + 1
      label := match existing.get? i with
               | some c => c.label
               | none => "ממיר " ++ toString (i + 1)
      stringCount := match existing.get? i with
                     | some c => c.stringCount
                     | none => defaultStrings })
  { insp with
      inverterConfigs := configs
      dcMeasurements := generateDcMeasurements configs idGen
      inverterSerials := generateInverterSerials configs }

/-- A `Partial<InverterConfig>` update record. -/
structure ConfigUpdate where
  index : Option Nat
  label : Option String
  stringCount : Option Nat
deriving DecidableEq, Repr

def applyConfigUpdate (c : InverterConfig) (u : ConfigUpdate) : InverterConfig :=
  { index := u.index.getD c.index
    label := u.label.getD c.label
    stringCount := u.stringCount.getD c.stringCount }

/-- `Object.assign` on the first config whose index matches. -/
def updateFirstConfig : List InverterConfig → Nat → ConfigUpdate → List InverterConfig
  | [], _, _ => []
  | c :: rest, index, u =>
    if c.index = index then applyConfigUpdate c u :: rest
    else c :: updateFirstConfig rest index u

/-- `updateInverterConfig(index, updates)`: if a config with the index
exists, update it in place and regenerate measurements and serials;
otherwise do nothing. -/
def updateInverterConfig (insp : Inspection) (index : Nat) (u : ConfigUpdate)
    (idGen : Nat → Nat → String) : Inspection :=
  if insp.inverterConfigs.any (fun c => c.index == index) then
    let configs := updateFirstConfig insp.inverterConfigs index u
    { insp with
        inverterConfigs := configs
        dcMeasurements := generateDcMeasurements configs idGen
        inverterSerials := generateInverterSerials configs }
  else insp

/-- `addDcString(inverterIndex)` on the measurement list. -/
def addDcString (measurements : List DcStringMeasurement) (inverterIndex : Nat)
    (newId : String) : List DcStringMeasurement :=
  measurements ++ [createDcMeasurement newId inverterIndex
    (nextTopLevelLabel measurements inverterIndex)]

/-- The depth loop of `addDcSubstring`: walk up the parent chain.  The
source's `while (cur.parentId)` loop diverges on a parent cycle; fuel
`measurements.length + 1` is enough whenever the source terminates.  A
dangling parent id counts one step and stops, as in the source
(`depth++` happens before the `if (!p) break`). -/
def parentDepth (measurements : List DcStringMeasurement) :
    Nat → DcStringMeasurement → Nat
  | 0, _ => 0
  | fuel + 1, cur =>
    match cur.parentId with
    | none => 0
    | some pid =>
      match measurements.find? (fun m => m.id == pid) with
      | none => 1
      | some p => 1 + parentDepth measurements fuel p

/-- `addDcSubstring(parentId)` on the measurement list: refuse when the
parent is missing or already at depth ≥ 2, otherwise append a child of
the parent's inverter with the next child label. -/
def addDcSubstring (measurements : List DcStringMeasurement) (parentId : String)
    (newId : String) : List DcStringMeasurement :=
  match measurements.find? (fun m => m.id == parentId) with
  | none => measurements
  | some parent =>
    if parentDepth measurements (measurements.length + 1) parent ≥ 2 then measurements
    else
      measurements ++ [createDcMeasurement newId parent.inverterIndex
        (nextChildLabel measurements parentId parent.stringLabel) (some parentId)]

/-- `removeDcMeasurement(id)`: cascade delete by id set. -/
def removeDcMeasurement (measurements : List DcStringMeasurement) (id : String) :
    List DcStringMeasurement :=
  let idsToRemove := id :: getDescendantIds measurements (measurements.length + 1) id
  measurements.filter (fun m => !(idsToRemove.contains m.id))

/-- A `Partial<DcStringMeasurement>` update record. -/
structure DcUpdate where
  id : Option String
  parentId : Option (Option String)
  inverterIndex : Option Nat
  stringLabel : Option String
  panelCount : Option (Option Int)
  openCircuitVoltage : Option (Option Int)
  operatingCurrent : Option (Option Int)
  stringRiso : Option (Option Int)
  feedRisoNegative : Option (Option Int)
  feedRisoPositive : Option (Option Int)
deriving DecidableEq, Repr

/-- An update record that touches nothing. -/
def DcUpdate.empty : DcUpdate :=
  { id := none, parentId := none, inverterIndex := none, stringLabel := none
    panelCount := none, openCircuitVoltage := none, operatingCurrent := none
    stringRiso := none, feedRisoNegative := none, feedRisoPositive := none }

def applyDcUpdate (m : DcStringMeasurement) (u : DcUpdate) : DcStringMeasurement :=
  { id := u.id.getD m.id
    parentId := u.parentId.getD m.parentId
    inverterIndex := u.inverterIndex.getD m.inverterIndex
    stringLabel := u.stringLabel.getD m.stringLabel
    panelCount := u.panelCount.getD m.panelCount
    openCircuitVoltage := u.openCircuitVoltage.getD m.openCircuitVoltage
    operatingCurrent := u.operatingCurrent.getD m.operatingCurrent
    stringRiso := u.stringRiso.getD m.stringRiso
    feedRisoNegative := u.feedRisoNegative.getD m.feedRisoNegative
    feedRisoPositive := u.feedRisoPositive.getD m.feedRisoPositive }

/-- `Object.assign` on the first measurement whose id matches. -/
def updateFirstDc : List DcStringMeasurement → String → DcUpdate →
    List DcStringMeasurement
  | [], _, _ => []
  | m :: rest, id, u =>
    if m.id = id then applyDcUpdate m u :: rest
    else m :: updateFirstDc rest id u

/-- `updateDcMeasurement(id, updates)` on the measurement list. -/
def updateDcMeasurement (measurements : List DcStringMeasurement) (id : String)
    (u : DcUpdate) : List DcStringMeasurement :=
  updateFirstDc measurements id u

-- ── Stripe baker lemmas ──────────────────────────────────────────

/-- Full description of one striped row: inside columns 1..colCount the
cell is restyled, elsewhere untouched. -/
theorem applyStripeRow_cells (r : Nat) (color : String) (n : Nat) (ws : Worksheet)
    (r' c' : Nat) :
    (applyStripeRow r color n ws).cells r' c' =
      if r' = r ∧ 1 ≤ c' ∧ c' ≤ n then restyled (ws.cells r' c') color
      else ws.cells r' c' := by
  induction n generalizing r' c' with
  | zero =>
    simp only [applyStripeRow]
    have : ¬ (r' = r ∧ 1 ≤ c' ∧ c' ≤ 0) := by omega
    rw [if_neg this]
  | succ n ih =>
    simp only [applyStripeRow, Worksheet.putCell, Worksheet.getCell]
    by_cases h : r' = r ∧ c' = n + 1
    · rw [if_pos h]
      have hin : r' = r ∧ 1 ≤ c' ∧ c' ≤ n + 1 := by omega
      rw [if_pos hin, ih r (n + 1)]
      have : ¬ (r = r ∧ 1 ≤ n + 1 ∧ n + 1 ≤ n) := by omega
      rw [if_neg this, h.1, h.2]
    · rw [if_neg h, ih r' c']
      by_cases h2 : r' = r ∧ 1 ≤ c' ∧ c' ≤ n
      · have : r' = r ∧ 1 ≤ c' ∧ c' ≤ n + 1 := by omega
        rw [if_pos h2, if_pos this]
      · have : ¬ (r' = r ∧ 1 ≤ c' ∧ c' ≤ n + 1) := by
          rintro ⟨h1, hc1, hc2⟩
          rcases Nat.lt_or_ge c' (n + 1) with hlt | hge
          · exact h2 ⟨h1, hc1, by omega⟩
          · exact h ⟨h1, by omega⟩
        rw [if_neg h2, if_neg this]

/-- Rows not in the processed list are untouched by phase 2. -/
theorem bakeRows_frame (flags : List Nat) (n : Nat) (rows : List Nat)
    (i : Nat) (ws : Worksheet) (r' c' : Nat) (h : r' ∉ rows) :
    (bakeRows flags n rows i ws).cells r' c' = ws.cells r' c' := by
  induction rows generalizing i ws with
  | nil => rfl
  | cons r rest ih =>
    simp only [bakeRows]
    have hne : r' ≠ r := fun he => h (he ▸ List.mem_cons_self r rest)
    have hrest : r' ∉ rest := fun hm => h (List.mem_cons_of_mem r hm)
    rw [ih _ _ hrest]
    by_cases hf : flags.contains r
    · rw [if_pos hf]
    · rw [if_neg hf, applyStripeRow_cells]
      have : ¬ (r' = r ∧ 1 ≤ c' ∧ c' ≤ n) := fun hc => hne hc.1
      rw [if_neg this]

/-- Value of a cell in a row range processed by phase 2: flagged rows are
untouched, unflagged rows are restyled at the running index `i + (r - s)`
inside the column range, all other cells are untouched. -/
theorem bakeRows_range'_cells (flags : List Nat) (n : Nat) (cnt s i : Nat)
    (ws : Worksheet) (r c : Nat) (hr1 : s ≤ r) (hr2 : r < s + cnt) :
    (bakeRows flags n (List.range' s cnt) i ws).cells r c =
      if flags.contains r then ws.cells r c
      else if 1 ≤ c ∧ c ≤ n then
        restyled (ws.cells r c) (stripeColor (i + (r - s)))
      else ws.cells r c := by
  induction cnt generalizing s i ws with
  | zero => omega
  | succ cnt ih =>
    rw [List.range'_succ]
    simp only [bakeRows]
    by_cases hrs : r = s
    · subst hrs
      have hout : r ∉ List.range' (r + 1) cnt := by
        intro hm
        have := List.mem_range'_1.mp hm
        omega
      rw [bakeRows_frame _ _ _ _ _ _ _ hout]
      by_cases hf : flags.contains r
      · rw [if_pos hf, if_pos hf]
      · rw [if_neg hf, if_neg hf, applyStripeRow_cells]
        by_cases hc : 1 ≤ c ∧ c ≤ n
        · rw [if_pos ⟨rfl, hc⟩, if_pos hc, Nat.sub_self, Nat.add_zero]
        · have hnc : ¬ (r = r ∧ 1 ≤ c ∧ c ≤ n) := fun hx => hc hx.2
          rw [if_neg hnc, if_neg hc]
    · have hr1' : s + 1 ≤ r := by omega
      have hr2' : r < s + 1 + cnt := by omega
      rw [ih (s + 1) (i + 1) _ hr1' hr2']
      have harith : i + 1 + (r - (s + 1)) = i + (r - s) := by omega
      have hws' : ∀ ws0 : Worksheet,
          (if flags.contains s then ws0
           else applyStripeRow s (stripeColor i) n ws0).cells r c = ws0.cells r c := by
        intro ws0
        by_cases hf : flags.contains s
        · rw [if_pos hf]
        · rw [if_neg hf, applyStripeRow_cells]
          have : ¬ (r = s ∧ 1 ≤ c ∧ c ≤ n) := fun hx => hrs hx.1
          rw [if_neg this]
      rw [harith, hws' ws]

/-- Full description of `bakeTableStripes`: a cell changes exactly when its
row is in range and not pre-flagged via column 1, and its column is in
1..colCount; it is then restyled with the parity color of `row - start`. -/
theorem bakeTableStripes_cells (ws : Worksheet) (s e n r c : Nat) :
    (bakeTableStripes ws s e n).cells r c =
      if s ≤ r ∧ r ≤ e ∧ hasSolidFill (ws.cells r 1) = false ∧ 1 ≤ c ∧ c ≤ n then
        restyled (ws.cells r c) (stripeColor (r - s))
      else ws.cells r c := by
  simp only [bakeTableStripes]
  by_cases hin : s ≤ r ∧ r ≤ e
  · have hr2 : r < s + (e + 1 - s) := by omega
    rw [bakeRows_range'_cells _ _ _ _ _ _ _ _ hin.1 hr2]
    have hcont : (List.filter (fun r0 => hasSolidFill (ws.getCell r0 1))
        (List.range' s (e + 1 - s))).contains r = hasSolidFill (ws.cells r 1) := by
      by_cases hs : hasSolidFill (ws.cells r 1) = true
      · rw [hs]
        apply List.elem_iff.mpr
        apply List.mem_filter.mpr
        refine ⟨List.mem_range'_1.mpr ⟨hin.1, hr2⟩, ?_⟩
        exact hs
      · have hs' : hasSolidFill (ws.cells r 1) = false := by
          cases hx : hasSolidFill (ws.cells r 1)
          · rfl
          · exact absurd hx hs
        rw [hs']
        cases hcc : (List.filter (fun r0 => hasSolidFill (ws.getCell r0 1))
            (List.range' s (e + 1 - s))).contains r
        · rfl
        · exfalso
          have := (List.mem_filter.mp (List.elem_iff.mp hcc)).2
          exact hs (by exact this)
    rw [hcont]
    by_cases hflag : hasSolidFill (ws.cells r 1) = true
    · rw [if_pos hflag]
      have hnot : ¬ (s ≤ r ∧ r ≤ e ∧ hasSolidFill (ws.cells r 1) = false ∧
          1 ≤ c ∧ c ≤ n) := by
        rintro ⟨_, _, hff, _⟩
        rw [hflag] at hff
        simp at hff
      rw [if_neg hnot]
    · have hflag' : hasSolidFill (ws.cells r 1) = false := by
        cases hx : hasSolidFill (ws.cells r 1)
        · rfl
        · exact absurd hx hflag
      rw [if_neg hflag]
      by_cases hc : 1 ≤ c ∧ c ≤ n
      · rw [if_pos hc, if_pos ⟨hin.1, hin.2, hflag', hc⟩, Nat.zero_add]
      · rw [if_neg hc]
        have : ¬ (s ≤ r ∧ r ≤ e ∧ hasSolidFill (ws.cells r 1) = false ∧ 1 ≤ c ∧ c ≤ n) := by
          rintro ⟨_, _, _, hcc⟩
          exact hc hcc
        rw [if_neg this]
  · have hout : r ∉ List.range' s (e + 1 - s) := by
      intro hm
      have := List.mem_range'_1.mp hm
      omega
    rw [bakeRows_frame _ _ _ _ _ _ _ hout]
    have : ¬ (s ≤ r ∧ r ≤ e ∧ hasSolidFill (ws.cells r 1) = false ∧ 1 ≤ c ∧ c ≤ n) := by
      rintro ⟨h1, h2, _⟩
      exact hin ⟨h1, h2⟩
    rw [if_neg this]

theorem stripeColor_eq (i : Nat) :
    stripeColor i = if i % 2 = 0 then "FFD9E2F3" else "FFB4C6E7" := by
  unfold stripeColor
  by_cases h : i % 2 = 0 <;> simp [h]

/-- A blank cell (no value, no styles). -/
def blankCell : Cell :=
  { value := none, numFmt := none, font := none, alignment := none
    border := none, fill := none }

/-- An all-blank five-row worksheet used as a concrete test sheet. -/
def wsBlank : Worksheet :=
  { name := "sheet", rowCount := 5, cells := fun _ _ => blankCell, tables := [] }

/-- A worksheet whose cell (3, 2) carries a solid fill while column 1 of
row 3 does not. -/
def wsSideFill : Worksheet :=
  { name := "sheet"
    rowCount := 5
    cells := fun r c =>
      if r = 3 ∧ c = 2 then
        { blankCell with
            fill := some { type := "pattern", pattern := "solid"
                           fgColor := "FF000000", bgColor := "FF000000" } }
      else blankCell
    tables := [] }

/-- C1: for every worksheet, start row, end row and column count, every row
of [start, end] whose column-1 cell was not flagged in phase 1 as already
carrying a solid fill receives, in every column of 1..colCount, a solid
fill alternating between ARGB FFD9E2F3 and FFB4C6E7 according to the
parity of the count of rows visited so far in the range (row − start, a
counter that advances for flagged rows too), while every pre-flagged row
keeps the fill of each of its cells unchanged. -/
theorem bakeTableStripes_spec (ws : Worksheet) (s e n r c : Nat)
    (h1 : s ≤ r) (h2 : r ≤ e) :
    (hasSolidFill (ws.getCell r 1) = false → 1 ≤ c → c ≤ n →
      ((bakeTableStripes ws s e n).getCell r c).fill =
        some { type := "pattern", pattern := "solid"
               fgColor := if (r - s) % 2 = 0 then "FFD9E2F3" else "FFB4C6E7"
               bgColor := if (r - s) % 2 = 0 then "FFD9E2F3" else "FFB4C6E7" }) ∧
    (hasSolidFill (ws.getCell r 1) = true →
      ((bakeTableStripes ws s e n).getCell r c).fill = (ws.getCell r c).fill) := by
  constructor
  · intro hflag hc1 hc2
    show ((bakeTableStripes ws s e n).cells r c).fill = _
    rw [bakeTableStripes_cells, if_pos ⟨h1, h2, hflag, hc1, hc2⟩]
    simp only [restyled]
    rw [stripeColor_eq]
  · intro hflag
    show ((bakeTableStripes ws s e n).cells r c).fill = (ws.cells r c).fill
    rw [bakeTableStripes_cells]
    have : ¬ (s ≤ r ∧ r ≤ e ∧ hasSolidFill (ws.cells r 1) = false ∧ 1 ≤ c ∧ c ≤ n) := by
      rintro ⟨_, _, hff, _⟩
      have hflag' : hasSolidFill (ws.cells r 1) = true := hflag
      rw [hflag'] at hff
      simp at hff
    rw [if_neg this]

theorem bakeTableStripes_spec_witness :
    (2 ≤ 3 ∧ 3 ≤ 4 ∧ hasSolidFill (wsBlank.getCell 3 1) = false) ∧
    ((bakeTableStripes wsBlank 2 4 4).getCell 3 2).fill =
      some { type := "pattern", pattern := "solid"
             fgColor := if (3 - 2) % 2 = 0 then "FFD9E2F3" else "FFB4C6E7"
             bgColor := if (3 - 2) % 2 = 0 then "FFD9E2F3" else "FFB4C6E7" } :=
  ⟨⟨by decide, by decide, by decide⟩,
   (bakeTableStripes_spec wsBlank 2 4 4 3 2 (by decide) (by decide)).1
     (by decide) (by decide) (by decide)⟩

/-- C10: the baker classifies a row as pre-filled solely by the fill of
column 1 of that row: a solid fill present only in a column ≥ 2 does not
protect the row from being restriped; and the baker never changes any
cell's value, nor any cell outside rows [start, end] and columns
[1, colCount]. -/
theorem bakeTableStripes_frame (ws : Worksheet) (s e n r c c2 : Nat) :
    (((bakeTableStripes ws s e n).getCell r c).value = (ws.getCell r c).value) ∧
    ((r < s ∨ e < r ∨ c < 1 ∨ n < c) →
      (bakeTableStripes ws s e n).getCell r c = ws.getCell r c) ∧
    (s ≤ r → r ≤ e → 1 ≤ c → c ≤ n → 2 ≤ c2 →
      hasSolidFill (ws.getCell r 1) = false →
      hasSolidFill (ws.getCell r c2) = true →
      ((bakeTableStripes ws s e n).getCell r c).fill =
        some { type := "pattern", pattern := "solid"
               fgColor := stripeColor (r - s), bgColor := stripeColor (r - s) }) := by
  refine ⟨?_, ?_, ?_⟩
  · show ((bakeTableStripes ws s e n).cells r c).value = (ws.cells r c).value
    rw [bakeTableStripes_cells]
    by_cases h : s ≤ r ∧ r ≤ e ∧ hasSolidFill (ws.cells r 1) = false ∧ 1 ≤ c ∧ c ≤ n
    · rw [if_pos h, restyled]
    · rw [if_neg h]
  · intro hout
    show (bakeTableStripes ws s e n).cells r c = ws.cells r c
    rw [bakeTableStripes_cells]
    have : ¬ (s ≤ r ∧ r ≤ e ∧ hasSolidFill (ws.cells r 1) = false ∧ 1 ≤ c ∧ c ≤ n) := by
      rintro ⟨ha, hb, _, hc1, hc2⟩
      rcases hout with h | h | h | h <;> omega
    rw [if_neg this]
  · intro ha hb hc1 hc2 _ hflag _
    show ((bakeTableStripes ws s e n).cells r c).fill = _
    rw [bakeTableStripes_cells, if_pos ⟨ha, hb, hflag, hc1, hc2⟩, restyled]

theorem bakeTableStripes_frame_witness :
    (2 ≤ 3 ∧ 3 ≤ 4 ∧ 1 ≤ 2 ∧ 2 ≤ 4 ∧ 2 ≤ 2 ∧
      hasSolidFill (wsSideFill.getCell 3 1) = false ∧
      hasSolidFill (wsSideFill.getCell 3 2) = true) ∧
    ((bakeTableStripes wsSideFill 2 4 4).getCell 3 2).fill =
      some { type := "pattern", pattern := "solid"
             fgColor := stripeColor (3 - 2), bgColor := stripeColor (3 - 2) } :=
  ⟨⟨by decide, by decide, by decide, by decide, by decide, by decide, by decide⟩,
   (bakeTableStripes_frame wsSideFill 2 4 4 3 2 2).2.2
     (by decide) (by decide) (by decide) (by decide) (by decide) (by decide) (by decide)⟩

-- ── Sheet fillers (excel.ts) ─────────────────────────────────────

/-- `setCell(ws, row, col, value)`: write the value, preserving the style;
the guard `value === undefined || value === ''` skips the write. -/
def setCell (ws : Worksheet) (row col : Nat) (value : Option Value) : Worksheet :=
  if value = none ∨ value = some (Value.s "") then ws
  else ws.putCell row col { ws.getCell row col with value := value }

/-- A string cell value. -/
def strV (s : String) : Option Value := some (Value.s s)

/-- A numeric cell value. -/
def natV (n : Nat) : Option Value := some (Value.n (Int.ofNat n))

/-- `String.prototype.trim`, over the character list. -/
def trimJS (s : String) : String :=
  String.mk (((s.toList.dropWhile Char.isWhitespace).reverse.dropWhile
    Char.isWhitespace).reverse)

/-- `String.prototype.startsWith`, over the character lists. -/
def startsWithStr (s p : String) : Bool :=
  p.toList.isPrefixOf s.toList

/-- The `^\d+\.\d+$` test: a nonempty digit run, one dot, a nonempty digit
run reaching the end. -/
def isCodeShape (s : String) : Bool :=
  let cs := s.toList
  let a := cs.takeWhile (fun ch => ch.isDigit)
  match cs.drop a.length with
  | '.' :: b => !a.isEmpty && !b.isEmpty && b.all (fun ch => ch.isDigit)
  | _ => false

/-- Insert-or-overwrite into an association list, as `Map.set`. -/
def mapSet (m : List (String × Nat)) (k : String) (v : Nat) : List (String × Nat) :=
  if m.any (fun p => p.1 == k) then
    m.map (fun p => if p.1 == k then (k, v) else p)
  else m ++ [(k, v)]

/-- `Map.get`. -/
def mapGet (m : List (String × Nat)) (k : String) : Option Nat :=
  match m.find? (fun p => p.1 == k) with
  | some p => some p.2
  | none => none

/-- `buildCodeToRowMap(ws)`: scan rows 1..rowCount; every row whose trimmed
column-1 text looks like `N.N` maps that code to its row number (later
rows overwrite earlier ones, as `Map.set` does).  ExcelJS `eachRow` skips
rows with no content; such rows have empty column-1 text, which never
matches the code shape, so iterating all rows is equivalent. -/
def buildCodeToRowMap (ws : Worksheet) : List (String × Nat) :=
  (List.range' 1 ws.rowCount).foldl
    (fun m rowNumber =>
      let val := trimJS (cellText (ws.getCell rowNumber 1).value)
      if isCodeShape val then mapSet m val rowNumber else m)
    []

/-- The body of the checklist item loop: resolve the item's row, then
write status (column 3) and notes (column 4) when nonempty. -/
def checklistStep (codeToRow : List (String × Nat)) (acc : Worksheet)
    (item : ChecklistItem) : Worksheet :=
  match mapGet codeToRow item.sectionCode with
  | some row =>
    let acc1 := if item.status ≠ "" then setCell acc row 3 (strV item.status) else acc
    if item.notes ≠ "" then setCell acc1 row 4 (strV item.notes) else acc1
  | none => acc

/-- The fixed header writes of `fillChecklistSheet`: site name (B2),
inspection date (D2), inspector name (B3) and, when present, the
signature (D3). -/
def fillChecklistMeta (ws : Worksheet) (insp : Inspection) : Worksheet :=
  let ws1 := setCell ws 2 2 (strV insp.meta.siteName)
  let ws2 := setCell ws1 2 4 (strV insp.meta.inspectionDate)
  let ws3 := setCell ws2 3 2 (strV insp.meta.inspectorName)
  if insp.meta.signatureText ≠ "" then
    setCell ws3 3 4 (strV insp.meta.signatureText)
  else ws3

/-- `fillChecklistSheet(ws, inspection)`. -/
def fillChecklistSheet (ws : Worksheet) (insp : Inspection) : Worksheet :=
  let ws4 := fillChecklistMeta ws insp
  let codeToRow := buildCodeToRowMap ws4
  insp.checklist.foldl (checklistStep codeToRow) ws4

/-- One DC measurement row write inside `fillDcSheet`. -/
def writeDcRow (acc : Worksheet) (row : Nat) (m : DcStringMeasurement) : Worksheet :=
  let a1 := setCell acc row 2 (strV m.stringLabel)
  let a2 := match m.panelCount with
            | some v => setCell a1 row 3 (some (Value.n v))
            | none => a1
  let a3 := match m.openCircuitVoltage with
            | some v => setCell a2 row 4 (some (Value.n v))
            | none => a2
  let a4 := match m.operatingCurrent with
            | some v => setCell a3 row 5 (some (Value.n v))
            | none => a3
  let a5 := match m.stringRiso with
            | some v => setCell a4 row 6 (some (Value.n v))
            | none => a4
  let a6 := match m.feedRisoNegative with
            | some v => setCell a5 row 7 (some (Value.n v))
            | none => a5
  match m.feedRisoPositive with
  | some v => setCell a6 row 8 (some (Value.n v))
  | none => a6

/-- `fillDcSheet(ws, inspection)`: per inverter, a header row with the
inverter index, then one row per tree node in DFS order; returns the
worksheet and the last written row. -/
def fillDcSheet (ws : Worksheet) (insp : Inspection) : Worksheet × Nat :=
  let step := fun (st : Worksheet × Nat) (config : InverterConfig) =>
    let ws0 := setCell st.1 st.2 1 (natV config.index)
    let row0 := st.2 + 1
    let tree := getOrderedDcTree insp.dcMeasurements config.index
    tree.foldl (fun st2 md => (writeDcRow st2.1 st2.2 md.1, st2.2 + 1)) (ws0, row0)
  let final := insp.inverterConfigs.foldl step (ws, 2)
  (final.1, final.2 - 1)

/-- The marker-row scan of `fillAcSheet`: rows whose column-B text starts
with the fixed label. -/
def serialMarkerRows (ws : Worksheet) : List Nat :=
  (List.range' 1 ws.rowCount).filter
    (fun r => startsWithStr (cellText (ws.getCell r 2).value) "מהפך")

/-- The body of the AC measurement loop: resolve the item code's row,
write the result (column 3, skipping `undefined` and `''`) and the notes
(column 4, when nonempty). -/
def acStep (codeToRow : List (String × Nat)) (acc : Worksheet) (m : AcMeasurement) :
    Worksheet :=
  match mapGet codeToRow m.itemCode with
  | some row =>
    let acc1 := match m.result with
                | none => acc
                | some (Value.s "") => acc
                | some v => setCell acc row 3 (some v)
    if m.notes ≠ "" then setCell acc1 row 4 (strV m.notes) else acc1
  | none => acc

/-- The AC-measurement phase of `fillAcSheet`. -/
def fillAcMeasurements (ws : Worksheet) (insp : Inspection) : Worksheet :=
  insp.acMeasurements.foldl (acStep (buildCodeToRowMap ws)) ws

/-- The guard of the serial loop: `idx >= 0 && idx < serialRows.length &&
serial.serialNumber` with `idx = inverterIndex - 1` (an inverter index of
0 gives a negative JavaScript idx, modelled by `1 ≤ inverterIndex`). -/
def serialWritten (serialRows : List Nat) (serial : InverterSerial) : Prop :=
  1 ≤ serial.inverterIndex ∧ serial.inverterIndex - 1 < serialRows.length ∧
    serial.serialNumber ≠ ""

instance (rows : List Nat) (s : InverterSerial) : Decidable (serialWritten rows s) := by
  unfold serialWritten
  infer_instance

/-- The body of the serial loop: `idx = inverterIndex - 1` selects the
marker row; out-of-range indices and empty serials are skipped. -/
def serialStep (serialRows : List Nat) (acc : Worksheet) (serial : InverterSerial) :
    Worksheet :=
  if serialWritten serialRows serial then
    setCell acc (serialRows.getD (serial.inverterIndex - 1) 0) 3
      (strV serial.serialNumber)
  else acc

/-- `fillAcSheet(ws, inspection)`: write each AC measurement's result and
notes at its resolved code row, then write each non-empty inverter serial
into the marker row selected by `inverterIndex - 1`. -/
def fillAcSheet (ws : Worksheet) (insp : Inspection) : Worksheet :=
  let ws1 := fillAcMeasurements ws insp
  insp.inverterSerials.foldl (serialStep (serialMarkerRows ws1)) ws1

/-- `fillDefectsSheet(ws, defects)`: the i-th defect goes to row i + 2. -/
def fillDefectsSheet (ws : Worksheet) (defects : List Defect) : Worksheet :=
  (List.range defects.length).foldl
    (fun acc i =>
      match defects.get? i with
      | some d =>
        let a1 := setCell acc (i + 2) 1 (strV d.component)
        let a2 := setCell a1 (i + 2) 2 (strV d.fault)
        let a3 := setCell a2 (i + 2) 3 (strV d.location)
        setCell a3 (i + 2) 4 (strV d.status)
      | none => acc)
    ws

-- ── Export orchestrator (excel.ts) ───────────────────────────────

def SHEET_CHECKLIST : String := "פרוטוקול בדיקה תקופתית"
def SHEET_DC : String := " ערכי DC"
def SHEET_AC : String := "ערכי AC"
def SHEET_DEFECTS : String := "ריכוז ליקויים"

/-- A workbook: its worksheets in order. -/
structure Workbook where
  worksheets : List Worksheet

/-- `wb.getWorksheet(name)`. -/
def Workbook.getWorksheet (wb : Workbook) (name : String) : Option Worksheet :=
  wb.worksheets.find? (fun ws => ws.name == name)

/-- Mutating the worksheet object returned by `getWorksheet` updates it
inside the workbook: modelled as mapping the transformation over the
sheets with the given name. -/
def Workbook.mapSheet (wb : Workbook) (name : String) (f : Worksheet → Worksheet) :
    Workbook :=
  { worksheets := wb.worksheets.map (fun ws => if ws.name == name then f ws else ws) }

/-- The table-stripping loop of `downloadWorkbook`: snapshot the sheet's
tables and remove each by name (a table with a falsy, i.e. empty, name is
skipped by the `table?.name` guard). -/
def stripTables (ws : Worksheet) : Worksheet :=
  ws.tables.foldl
    (fun acc t =>
      if t.name ≠ "" then { acc with tables := acc.tables.filter (fun u => u.name ≠ t.name) }
      else acc)
    ws

/-- The environment of one export run: the fetch response, the parse
outcome on its bytes, and whether final serialization throws.  The two
awaited suspension points and the thrown exceptions of the source are
modelled with `Except`. -/
structure ExportEnv where
  responseOk : Bool
  responseStatus : Nat
  parseTemplate : Except String Workbook
  serializeFails : Bool

/-- The result handed to the browser download trigger: the serialized
workbook and the derived filename. -/
structure DownloadResult where
  workbook : Workbook
  filename : String

/-- `loadTemplate()`: throw on a non-success response, otherwise parse. -/
def loadTemplate (env : ExportEnv) : Except String Workbook :=
  if env.responseOk then env.parseTemplate
  else Except.error ("Failed to load template: " ++ toString env.responseStatus)

/-- The fill-and-bake phase of `downloadWorkbook` applied to a parsed
workbook. -/
def fillWorkbook (wb : Workbook) (insp : Inspection) (defects : List Defect) : Workbook :=
  let wb1 := if (wb.getWorksheet SHEET_CHECKLIST).isSome then
      wb.mapSheet SHEET_CHECKLIST
        (fun ws => bakeTableStripes (fillChecklistSheet ws insp) 2 84 4)
    else wb
  let wb2 := if (wb1.getWorksheet SHEET_DC).isSome then
      wb1.mapSheet SHEET_DC
        (fun ws =>
          let filled := fillDcSheet ws insp
          bakeTableStripes filled.1 2 filled.2 8)
    else wb1
  let wb3 := if (wb2.getWorksheet SHEET_AC).isSome then
      wb2.mapSheet SHEET_AC (fun ws => bakeTableStripes (fillAcSheet ws insp) 2 42 4)
    else wb2
  if (wb3.getWorksheet SHEET_DEFECTS).isSome then
    wb3.mapSheet SHEET_DEFECTS
      (fun ws => bakeTableStripes (fillDefectsSheet ws defects) 2 (max 2 (defects.length + 1)) 4)
  else wb3

/-- `downloadWorkbook(inspection, allDefects?)`: load, fill and bake the
four sheets, strip tables workbook-wide, serialize, then trigger the
download.  The anchor click of the source corresponds exactly to
returning `Except.ok`. -/
def downloadWorkbook (env : ExportEnv) (insp : Inspection)
    (allDefects : Option (List Defect)) : Except String DownloadResult := do
  let wb ← loadTemplate env
  let defects := allDefects.getD insp.defects
  let wb4 := fillWorkbook wb insp defects
  let wb5 : Workbook := { worksheets := wb4.worksheets.map stripTables }
  if env.serializeFails then
    Except.error "serialization failed"
  else
    Except.ok
      { workbook := wb5
        filename := "בדיקה_" ++
          (if insp.meta.siteName ≠ "" then insp.meta.siteName else "ללא_שם") ++
          "_" ++ insp.meta.inspectionDate ++ ".xlsx" }

-- ── Orchestrator lemmas: C4 and C9 ───────────────────────────────

/-- A minimal concrete inspection. -/
def inspEmpty : Inspection :=
  { meta := { siteName := "", inspectionDate := "", inspectorName := "", signatureText := "" }
    inverterConfigs := []
    checklist := []
    dcMeasurements := []
    acMeasurements := []
    inverterSerials := []
    defects := [] }

/-- An environment whose template fetch returns HTTP 404. -/
def envFetch404 : ExportEnv :=
  { responseOk := false
    responseStatus := 404
    parseTemplate := Except.error "unreachable"
    serializeFails := false }

/-- C4: a non-success template fetch makes `downloadWorkbook` throw with
the fetch error and no download is triggered; conversely a triggered
download (an `ok` result) implies the fetch succeeded, the template
parsed, the fill phase ran on the parsed workbook, and serialization
succeeded — the anchor click is only reached after all of them. -/
theorem downloadWorkbook_fetch_failure (env : ExportEnv) (insp : Inspection)
    (allDefects : Option (List Defect)) :
    (env.responseOk = false →
      downloadWorkbook env insp allDefects =
        Except.error ("Failed to load template: " ++ toString env.responseStatus)) ∧
    (∀ res, downloadWorkbook env insp allDefects = Except.ok res →
      env.responseOk = true ∧ env.serializeFails = false ∧
      ∃ wb, env.parseTemplate = Except.ok wb ∧
        res.workbook = { worksheets :=
          (fillWorkbook wb insp (allDefects.getD insp.defects)).worksheets.map stripTables }) := by
  constructor
  · intro hfail
    simp only [downloadWorkbook, loadTemplate, hfail]
    rfl
  · intro res hok
    simp only [downloadWorkbook, loadTemplate] at hok
    cases hro : env.responseOk with
    | false =>
      rw [hro] at hok
      simp [Bind.bind, Except.bind] at hok
    | true =>
      rw [hro] at hok
      simp only [if_true] at hok
      cases hpt : env.parseTemplate with
      | error e =>
        rw [hpt] at hok
        simp [Bind.bind, Except.bind] at hok
      | ok wb =>
        rw [hpt] at hok
        cases hsf : env.serializeFails with
        | true =>
          rw [hsf] at hok
          simp [Bind.bind, Except.bind] at hok
        | false =>
          rw [hsf] at hok
          simp only [Bind.bind, Except.bind, Bool.false_eq_true, if_false, ite_false] at hok
          refine ⟨rfl, rfl, wb, rfl, ?_⟩
          cases hok
          rfl

theorem downloadWorkbook_fetch_failure_witness :
    envFetch404.responseOk = false ∧
    downloadWorkbook envFetch404 inspEmpty none =
      Except.error ("Failed to load template: " ++ toString envFetch404.responseStatus) :=
  ⟨rfl, (downloadWorkbook_fetch_failure envFetch404 inspEmpty none).1 rfl⟩

theorem putCell_tables (ws : Worksheet) (r c : Nat) (cell : Cell) :
    (ws.putCell r c cell).tables = ws.tables := rfl

theorem setCell_tables (ws : Worksheet) (r c : Nat) (v : Option Value) :
    (setCell ws r c v).tables = ws.tables := by
  unfold setCell
  split <;> rfl

theorem applyStripeRow_tables (r : Nat) (color : String) (n : Nat) (ws : Worksheet) :
    (applyStripeRow r color n ws).tables = ws.tables := by
  induction n with
  | zero => rfl
  | succ n ih => simp only [applyStripeRow, putCell_tables, ih]

theorem bakeRows_tables (flags : List Nat) (n : Nat) (rows : List Nat) (i : Nat)
    (ws : Worksheet) : (bakeRows flags n rows i ws).tables = ws.tables := by
  induction rows generalizing i ws with
  | nil => rfl
  | cons r rest ih =>
    simp only [bakeRows]
    rw [ih]
    by_cases hf : flags.contains r
    · rw [if_pos hf]
    · rw [if_neg hf, applyStripeRow_tables]

theorem bakeTableStripes_tables (ws : Worksheet) (s e n : Nat) :
    (bakeTableStripes ws s e n).tables = ws.tables := by
  unfold bakeTableStripes
  exact bakeRows_tables _ _ _ _ _

/-- A fold whose step preserves the table list preserves the table list. -/
theorem foldl_tables {α : Type} (f : Worksheet → α → Worksheet) (l : List α)
    (hf : ∀ ws a, (f ws a).tables = ws.tables) :
    ∀ ws : Worksheet, (l.foldl f ws).tables = ws.tables := by
  induction l with
  | nil => intro ws; rfl
  | cons a rest ih =>
    intro ws
    rw [List.foldl_cons, ih, hf]

/-- The paired variant for folds carrying a row counter. -/
theorem foldl_pair_tables {α : Type} (f : Worksheet × Nat → α → Worksheet × Nat)
    (l : List α) (hf : ∀ st a, (f st a).1.tables = st.1.tables) :
    ∀ st : Worksheet × Nat, (l.foldl f st).1.tables = st.1.tables := by
  induction l with
  | nil => intro st; rfl
  | cons a rest ih =>
    intro st
    rw [List.foldl_cons, ih, hf]

theorem checklistStep_tables (codeToRow : List (String × Nat)) (acc : Worksheet)
    (item : ChecklistItem) : (checklistStep codeToRow acc item).tables = acc.tables := by
  unfold checklistStep
  cases hmg : mapGet codeToRow item.sectionCode
  · rfl
  · by_cases hs : item.status ≠ "" <;> by_cases hn : item.notes ≠ "" <;>
      simp [hs, hn, setCell_tables]

theorem fillChecklistSheet_tables (ws : Worksheet) (insp : Inspection) :
    (fillChecklistSheet ws insp).tables = ws.tables := by
  unfold fillChecklistSheet fillChecklistMeta
  rw [foldl_tables]
  · by_cases h : insp.meta.signatureText ≠ "" <;> simp [h, setCell_tables]
  · intro acc item
    exact checklistStep_tables _ acc item

theorem writeDcRow_tables (acc : Worksheet) (row : Nat) (m : DcStringMeasurement) :
    (writeDcRow acc row m).tables = acc.tables := by
  simp only [writeDcRow]
  repeat' split
  all_goals simp [setCell_tables]

theorem fillDcSheet_tables (ws : Worksheet) (insp : Inspection) :
    (fillDcSheet ws insp).1.tables = ws.tables := by
  simp only [fillDcSheet]
  rw [foldl_pair_tables]
  intro st config
  beta_reduce
  rw [foldl_pair_tables]
  · simp [setCell_tables]
  · intro st2 md
    simp [writeDcRow_tables]

theorem acStep_tables (codeToRow : List (String × Nat)) (acc : Worksheet)
    (m : AcMeasurement) : (acStep codeToRow acc m).tables = acc.tables := by
  unfold acStep
  repeat' split
  all_goals simp [setCell_tables]

theorem serialStep_tables (serialRows : List Nat) (acc : Worksheet)
    (serial : InverterSerial) : (serialStep serialRows acc serial).tables = acc.tables := by
  unfold serialStep
  split
  · rw [setCell_tables]
  · rfl

theorem fillAcSheet_tables (ws : Worksheet) (insp : Inspection) :
    (fillAcSheet ws insp).tables = ws.tables := by
  simp only [fillAcSheet, fillAcMeasurements]
  rw [foldl_tables _ _ (serialStep_tables _), foldl_tables _ _ (acStep_tables _)]

theorem fillDefectsSheet_tables (ws : Worksheet) (defects : List Defect) :
    (fillDefectsSheet ws defects).tables = ws.tables := by
  unfold fillDefectsSheet
  rw [foldl_tables]
  intro acc i
  cases hd : defects.get? i
  · simp [hd]
  · simp [hd, setCell_tables]

/-- Every sheet of the filled workbook has the table list of a sheet of
the parsed workbook. -/
theorem fillWorkbook_tables (wb : Workbook) (insp : Inspection) (defects : List Defect) :
    ∀ ws' ∈ (fillWorkbook wb insp defects).worksheets,
      ∃ ws ∈ wb.worksheets, ws'.tables = ws.tables := by
  have hmap : ∀ (wb0 : Workbook) (name : String) (f : Worksheet → Worksheet),
      (∀ ws, (f ws).tables = ws.tables) →
      ∀ ws' ∈ (wb0.mapSheet name f).worksheets, ∃ ws ∈ wb0.worksheets, ws'.tables = ws.tables := by
    intro wb0 name f hf ws' hmem
    simp only [Workbook.mapSheet, List.mem_map] at hmem
    obtain ⟨ws, hws, heq⟩ := hmem
    refine ⟨ws, hws, ?_⟩
    rw [← heq]
    by_cases hn : ws.name == name
    · simp [hn, hf]
    · simp [hn]
  have hcomp : ∀ (wb0 : Workbook) (name : String) (f : Worksheet → Worksheet),
      (∀ ws, (f ws).tables = ws.tables) →
      (∀ ws' ∈ wb0.worksheets, ∃ ws ∈ wb.worksheets, ws'.tables = ws.tables) →
      ∀ ws' ∈ (if (wb0.getWorksheet name).isSome then wb0.mapSheet name f else wb0).worksheets,
        ∃ ws ∈ wb.worksheets, ws'.tables = ws.tables := by
    intro wb0 name f hf hwb0 ws' hmem
    by_cases hsome : (wb0.getWorksheet name).isSome
    · rw [if_pos hsome] at hmem
      obtain ⟨ws0, hws0, heq⟩ := hmap wb0 name f hf ws' hmem
      obtain ⟨ws, hws, heq2⟩ := hwb0 ws0 hws0
      exact ⟨ws, hws, heq.trans heq2⟩
    · rw [if_neg hsome] at hmem
      exact hwb0 ws' hmem
  unfold fillWorkbook
  apply hcomp
  · intro ws
    rw [bakeTableStripes_tables, fillDefectsSheet_tables]
  apply hcomp
  · intro ws
    rw [bakeTableStripes_tables, fillAcSheet_tables]
  apply hcomp
  · intro ws
    simp only
    rw [bakeTableStripes_tables, fillDcSheet_tables]
  apply hcomp
  · intro ws
    rw [bakeTableStripes_tables, fillChecklistSheet_tables]
  intro ws' hmem
  exact ⟨ws', hmem, rfl⟩

/-- The strip loop leaves no table whose name appears (nonempty) in the
snapshot. -/
theorem stripTables_fold_empty (snapshot : List TableObj) :
    ∀ acc : Worksheet,
      (∀ u ∈ acc.tables, ∃ t ∈ snapshot, t.name ≠ "" ∧ u.name = t.name) →
      (snapshot.foldl
        (fun acc t =>
          if t.name ≠ "" then
            { acc with tables := acc.tables.filter (fun u => u.name ≠ t.name) }
          else acc)
        acc).tables = [] := by
  induction snapshot with
  | nil =>
    intro acc hacc
    simp only [List.foldl_nil]
    cases htab : acc.tables with
    | nil => rfl
    | cons u rest =>
      exfalso
      have := hacc u (by rw [htab]; exact List.mem_cons_self u rest)
      obtain ⟨t, ht, _⟩ := this
      exact (List.not_mem_nil t) ht
  | cons t rest ih =>
    intro acc hacc
    simp only [List.foldl_cons]
    apply ih
    intro u hu
    by_cases hn : t.name ≠ ""
    · rw [if_pos hn] at hu
      simp only [List.mem_filter] at hu
      obtain ⟨hu1, hu2⟩ := hu
      obtain ⟨t', ht', hname, heq⟩ := hacc u hu1
      rcases List.mem_cons.mp ht' with h | h
      · exfalso
        subst h
        rw [heq] at hu2
        simp at hu2
      · exact ⟨t', h, hname, heq⟩
    · rw [if_neg hn] at hu
      obtain ⟨t', ht', hname, heq⟩ := hacc u hu
      rcases List.mem_cons.mp ht' with h | h
      · exfalso
        subst h
        exact hn hname
      · exact ⟨t', h, hname, heq⟩

/-- If every table of a sheet has a nonempty name, the strip loop empties
the sheet's tables. -/
theorem stripTables_empty (ws : Worksheet)
    (h : ∀ t ∈ ws.tables, t.name ≠ "") : (stripTables ws).tables = [] := by
  unfold stripTables
  apply stripTables_fold_empty
  intro u hu
  exact ⟨u, hu, h u hu, rfl⟩

/-- C9: after a completed `downloadWorkbook`, no table object remains in
any worksheet of the output workbook, whether or not a filler touched that
sheet (given the library invariant that parsed tables carry nonempty
names). -/
theorem downloadWorkbook_strips_tables (env : ExportEnv) (insp : Inspection)
    (allDefects : Option (List Defect)) (wb : Workbook)
    (hparse : env.parseTemplate = Except.ok wb)
    (hnames : ∀ ws ∈ wb.worksheets, ∀ t ∈ ws.tables, t.name ≠ "") :
    ∀ res, downloadWorkbook env insp allDefects = Except.ok res →
      ∀ ws ∈ res.workbook.worksheets, ws.tables = [] := by
  intro res hok ws hmem
  obtain ⟨-, -, wb', hparse', hres⟩ :=
    (downloadWorkbook_fetch_failure env insp allDefects).2 res hok
  rw [hparse] at hparse'
  cases hparse'
  rw [hres] at hmem
  simp only [List.mem_map] at hmem
  obtain ⟨ws0, hws0, heq⟩ := hmem
  obtain ⟨wsT, hwsT, htab⟩ := fillWorkbook_tables wb insp (allDefects.getD insp.defects) ws0 hws0
  rw [← heq]
  apply stripTables_empty
  intro t ht
  rw [htab] at ht
  exact hnames wsT hwsT t ht

/-- A concrete parsed template workbook: one AC sheet carrying a table. -/
def wbWithTable : Workbook :=
  { worksheets := [{ name := SHEET_AC, rowCount := 3, cells := fun _ _ => blankCell
                     tables := [{ name := "Table1" }] }] }

/-- An environment whose fetch, parse and serialization all succeed. -/
def envOk : ExportEnv :=
  { responseOk := true
    responseStatus := 200
    parseTemplate := Except.ok wbWithTable
    serializeFails := false }

theorem downloadWorkbook_strips_tables_witness :
    envOk.parseTemplate = Except.ok wbWithTable ∧
    (∀ ws ∈ wbWithTable.worksheets, ∀ t ∈ ws.tables, t.name ≠ "") ∧
    (∀ res, downloadWorkbook envOk inspEmpty none = Except.ok res →
      ∀ ws ∈ res.workbook.worksheets, ws.tables = []) :=
  ⟨rfl, by decide,
   downloadWorkbook_strips_tables envOk inspEmpty none wbWithTable rfl (by decide)⟩

-- ── C8: configuration changes regenerate measurements and serials ──

/-- Every generated measurement is a fresh root: no parent, no data. -/
theorem generateDcMeasurements_fresh (configs : List InverterConfig)
    (idGen : Nat → Nat → String) :
    ∀ m ∈ generateDcMeasurements configs idGen,
      m.parentId = none ∧ m.panelCount = none ∧ m.openCircuitVoltage = none ∧
      m.operatingCurrent = none ∧ m.stringRiso = none ∧
      m.feedRisoNegative = none ∧ m.feedRisoPositive = none := by
  intro m hm
  simp only [generateDcMeasurements, List.mem_flatMap, List.mem_map] at hm
  obtain ⟨inv, -, i, -, heq⟩ := hm
  subst heq
  exact ⟨rfl, rfl, rfl, rfl, rfl, rfl, rfl⟩

/-- With pairwise-distinct inverter indices, filtering the generated
measurements by one config's index yields exactly that config's block. -/
theorem generateDcMeasurements_filter (configs : List InverterConfig)
    (idGen : Nat → Nat → String)
    (hdist : List.Pairwise (fun a b => a.index ≠ b.index) configs) :
    ∀ cfg ∈ configs,
      (generateDcMeasurements configs idGen).filter
          (fun m => m.inverterIndex == cfg.index) =
        (List.range cfg.stringCount).map
          (fun i => createDcMeasurement (idGen cfg.index i) cfg.index (stringLabelFor i)) := by
  induction configs with
  | nil => intro cfg hcfg; exact absurd hcfg (List.not_mem_nil cfg)
  | cons c rest ih =>
    intro cfg hcfg
    have hblock : generateDcMeasurements (c :: rest) idGen =
        (List.range c.stringCount).map
          (fun i => createDcMeasurement (idGen c.index i) c.index (stringLabelFor i)) ++
        generateDcMeasurements rest idGen := by
      simp [generateDcMeasurements]
    rw [hblock, List.filter_append]
    have hrest_ne : ∀ b ∈ rest, c.index ≠ b.index := (List.pairwise_cons.mp hdist).1
    have hdist' : List.Pairwise (fun a b => a.index ≠ b.index) rest :=
      (List.pairwise_cons.mp hdist).2
    rcases List.mem_cons.mp hcfg with heq | hmem
    · subst heq
      have h1 : ((List.range cfg.stringCount).map
          (fun i => createDcMeasurement (idGen cfg.index i) cfg.index (stringLabelFor i))).filter
            (fun m => m.inverterIndex == cfg.index) =
          (List.range cfg.stringCount).map
            (fun i => createDcMeasurement (idGen cfg.index i) cfg.index (stringLabelFor i)) := by
        apply List.filter_eq_self.mpr
        intro m hm
        simp only [List.mem_map] at hm
        obtain ⟨i, -, heq⟩ := hm
        subst heq
        simp [createDcMeasurement]
      have h2 : (generateDcMeasurements rest idGen).filter
          (fun m => m.inverterIndex == cfg.index) = [] := by
        apply List.filter_eq_nil_iff.mpr
        intro m hm
        simp only [generateDcMeasurements, List.mem_flatMap, List.mem_map] at hm
        obtain ⟨inv, hinv, i, -, heq⟩ := hm
        subst heq
        simp only [createDcMeasurement, beq_iff_eq]
        exact fun hx => hrest_ne inv hinv hx.symm
      rw [h1, h2, List.append_nil]
    · have h1 : ((List.range c.stringCount).map
          (fun i => createDcMeasurement (idGen c.index i) c.index (stringLabelFor i))).filter
            (fun m => m.inverterIndex == cfg.index) = [] := by
        apply List.filter_eq_nil_iff.mpr
        intro m hm
        simp only [List.mem_map] at hm
        obtain ⟨i, -, heq⟩ := hm
        subst heq
        simp only [createDcMeasurement, beq_iff_eq]
        exact fun hx => hrest_ne cfg hmem hx
      rw [h1, List.nil_append]
      exact ih hdist' cfg hmem

/-- The configs built by `setInverterConfigs` carry pairwise-distinct
indices. -/
theorem setInverterConfigs_configs_distinct (insp : Inspection) (count ds : Nat)
    (idGen : Nat → Nat → String) :
    List.Pairwise (fun a b => a.index ≠ b.index)
      (setInverterConfigs insp count ds idGen).inverterConfigs := by
  simp only [setInverterConfigs]
  rw [List.pairwise_map]
  have := List.pairwise_lt_range count
  apply this.imp
  intro a b hab
  simp only
  omega

/-- C8: changing the inverter configuration through `setInverterConfigs`
or `updateInverterConfig` regenerates the DC measurement set from the new
configs — per config exactly one fresh root per string with labels
`stringLabelFor 0, 1, 2, ...` (A, B, C, ...), every numeric field and
parent unset, all prior per-string data discarded — and regenerates the
serial list with every serial number reset to the empty string. -/
theorem inverterConfig_change_regenerates (insp : Inspection) (count ds index : Nat)
    (u : ConfigUpdate) (idGen : Nat → Nat → String) :
    ((setInverterConfigs insp count ds idGen).dcMeasurements =
        generateDcMeasurements (setInverterConfigs insp count ds idGen).inverterConfigs idGen ∧
     (∀ m ∈ (setInverterConfigs insp count ds idGen).dcMeasurements,
        m.parentId = none ∧ m.panelCount = none ∧ m.openCircuitVoltage = none ∧
        m.operatingCurrent = none ∧ m.stringRiso = none ∧
        m.feedRisoNegative = none ∧ m.feedRisoPositive = none) ∧
     (∀ cfg ∈ (setInverterConfigs insp count ds idGen).inverterConfigs,
        ((setInverterConfigs insp count ds idGen).dcMeasurements.filter
            (fun m => m.inverterIndex == cfg.index)).map (fun m => m.stringLabel) =
          (List.range cfg.stringCount).map stringLabelFor) ∧
     (setInverterConfigs insp count ds idGen).inverterSerials =
        (setInverterConfigs insp count ds idGen).inverterConfigs.map
          (fun c => { inverterIndex := c.index, serialNumber := "" })) ∧
    (insp.inverterConfigs.any (fun c => c.index == index) = true →
      (updateInverterConfig insp index u idGen).dcMeasurements =
        generateDcMeasurements (updateInverterConfig insp index u idGen).inverterConfigs idGen ∧
      (∀ m ∈ (updateInverterConfig insp index u idGen).dcMeasurements,
        m.parentId = none ∧ m.panelCount = none ∧ m.openCircuitVoltage = none ∧
        m.operatingCurrent = none ∧ m.stringRiso = none ∧
        m.feedRisoNegative = none ∧ m.feedRisoPositive = none) ∧
      (updateInverterConfig insp index u idGen).inverterSerials =
        (updateInverterConfig insp index u idGen).inverterConfigs.map
          (fun c => { inverterIndex := c.index, serialNumber := "" })) ∧
    stringLabelFor 0 = "A" ∧ stringLabelFor 1 = "B" ∧ stringLabelFor 2 = "C" := by
  refine ⟨⟨rfl, ?_, ?_, rfl⟩, ?_, by decide, by decide, by decide⟩
  · exact generateDcMeasurements_fresh _ idGen
  · intro cfg hcfg
    have hd := setInverterConfigs_configs_distinct insp count ds idGen
    have := generateDcMeasurements_filter
      (setInverterConfigs insp count ds idGen).inverterConfigs idGen hd cfg hcfg
    calc ((setInverterConfigs insp count ds idGen).dcMeasurements.filter
            (fun m => m.inverterIndex == cfg.index)).map (fun m => m.stringLabel)
        = (((List.range cfg.stringCount).map
            (fun i => createDcMeasurement (idGen cfg.index i) cfg.index
              (stringLabelFor i)))).map (fun m => m.stringLabel) := by rw [← this]; rfl
      _ = (List.range cfg.stringCount).map stringLabelFor := by
            rw [List.map_map]; rfl
  · intro hfound
    have hu : updateInverterConfig insp index u idGen =
        { insp with
            inverterConfigs := updateFirstConfig insp.inverterConfigs index u
            dcMeasurements :=
              generateDcMeasurements (updateFirstConfig insp.inverterConfigs index u) idGen
            inverterSerials :=
              generateInverterSerials (updateFirstConfig insp.inverterConfigs index u) } := by
      simp [updateInverterConfig, hfound]
    rw [hu]
    exact ⟨rfl, generateDcMeasurements_fresh _ idGen, rfl⟩

/-- A concrete inspection with one configured inverter and prior data. -/
def inspOneInverter : Inspection :=
  { meta := { siteName := "site", inspectionDate := "2026-01-01"
              inspectorName := "i", signatureText := "" }
    inverterConfigs := [{ index := 1, label := "inv1", stringCount := 2 }]
    checklist := []
    dcMeasurements := [{ id := "old", parentId := none, inverterIndex := 1
                         stringLabel := "A", panelCount := some 12
                         openCircuitVoltage := some 400, operatingCurrent := some 9
                         stringRiso := none, feedRisoNegative := none
                         feedRisoPositive := none }]
    acMeasurements := []
    inverterSerials := [{ inverterIndex := 1, serialNumber := "SN-1" }]
    defects := [] }

/-- A deterministic stand-in for the UUID source. -/
def idGen0 (inv i : Nat) : String := toString inv ++ "-" ++ toString i

theorem inverterConfig_change_regenerates_witness :
    inspOneInverter.inverterConfigs.any (fun c => c.index == 1) = true ∧
    ((updateInverterConfig inspOneInverter 1
        { index := none, label := none, stringCount := some 3 } idGen0).dcMeasurements =
      generateDcMeasurements (updateInverterConfig inspOneInverter 1
        { index := none, label := none, stringCount := some 3 } idGen0).inverterConfigs idGen0 ∧
     (∀ m ∈ (updateInverterConfig inspOneInverter 1
        { index := none, label := none, stringCount := some 3 } idGen0).dcMeasurements,
        m.parentId = none ∧ m.panelCount = none ∧ m.openCircuitVoltage = none ∧
        m.operatingCurrent = none ∧ m.stringRiso = none ∧
        m.feedRisoNegative = none ∧ m.feedRisoPositive = none) ∧
     (updateInverterConfig inspOneInverter 1
        { index := none, label := none, stringCount := some 3 } idGen0).inverterSerials =
      (updateInverterConfig inspOneInverter 1
        { index := none, label := none, stringCount := some 3 } idGen0).inverterConfigs.map
          (fun c => { inverterIndex := c.index, serialNumber := "" })) :=
  ⟨by decide,
   (inverterConfig_change_regenerates inspOneInverter 2 4 1
      { index := none, label := none, stringCount := some 3 } idGen0).2.1 (by decide)⟩

-- ── C7: child labels from addDcSubstring ─────────────────────────

/-- C7 (amended): the child appended by `addDcSubstring` carries the label
`parentLabel.n` where `n` is one more than the number of existing children
of the parent — the 1-based position of the new child among the parent's
children, which become exactly the old children followed by the new one.
(The source numbers children by current count, so after a deletion the
label may coincide with that of a surviving sibling; see the
counterexample.) -/
theorem addDcSubstring_label (ms : List DcStringMeasurement) (pid newId : String)
    (parent : DcStringMeasurement)
    (hfind : ms.find? (fun m => m.id == pid) = some parent)
    (hdepth : parentDepth ms (ms.length + 1) parent < 2) :
    addDcSubstring ms pid newId =
      ms ++ [createDcMeasurement newId parent.inverterIndex
        (parent.stringLabel ++ "." ++
          toString ((ms.filter (fun m => m.parentId == some pid)).length + 1))
        (some pid)] ∧
    (addDcSubstring ms pid newId).filter (fun m => m.parentId == some pid) =
      ms.filter (fun m => m.parentId == some pid) ++
      [createDcMeasurement newId parent.inverterIndex
        (parent.stringLabel ++ "." ++
          toString ((ms.filter (fun m => m.parentId == some pid)).length + 1))
        (some pid)] := by
  have hstep : addDcSubstring ms pid newId =
      ms ++ [createDcMeasurement newId parent.inverterIndex
        (parent.stringLabel ++ "." ++
          toString ((ms.filter (fun m => m.parentId == some pid)).length + 1))
        (some pid)] := by
    unfold addDcSubstring
    rw [hfind]
    dsimp only
    rw [if_neg (show ¬ parentDepth ms (ms.length + 1) parent ≥ 2 by omega)]
    rfl
  refine ⟨hstep, ?_⟩
  rw [hstep, List.filter_append]
  congr 1
  simp [createDcMeasurement]

/-- A parent whose only surviving child is labelled `A.2` (its sibling
`A.1` was removed). -/
def labelParent : DcStringMeasurement :=
  { id := "p", parentId := none, inverterIndex := 1, stringLabel := "A"
    panelCount := none, openCircuitVoltage := none, operatingCurrent := none
    stringRiso := none, feedRisoNegative := none, feedRisoPositive := none }

def labelChild2 : DcStringMeasurement :=
  { id := "c2", parentId := some "p", inverterIndex := 1, stringLabel := "A.2"
    panelCount := none, openCircuitVoltage := none, operatingCurrent := none
    stringRiso := none, feedRisoNegative := none, feedRisoPositive := none }

/-- C7 counterexample: after the first child was removed, adding a new
child under the same parent produces a second sibling labelled `A.2` —
sibling labels are not unique, refuting the parenthetical of the claim. -/
theorem addDcSubstring_label_not_unique :
    ¬ List.Pairwise (fun a b => a.stringLabel ≠ b.stringLabel)
        ((addDcSubstring [labelParent, labelChild2] "p" "new").filter
          (fun m => m.parentId == some "p")) := by
  decide

theorem addDcSubstring_label_witness :
    ([labelParent, labelChild2].find? (fun m => m.id == "p") = some labelParent ∧
     parentDepth [labelParent, labelChild2] ([labelParent, labelChild2].length + 1)
       labelParent < 2) ∧
    addDcSubstring [labelParent, labelChild2] "p" "new" =
      [labelParent, labelChild2] ++ [createDcMeasurement "new" labelParent.inverterIndex
        (labelParent.stringLabel ++ "." ++
          toString ((([labelParent, labelChild2].filter
            (fun m => m.parentId == some "p"))).length + 1))
        (some "p")] :=
  ⟨⟨by decide, by decide⟩,
   (addDcSubstring_label [labelParent, labelChild2] "p" "new" labelParent
      (by decide) (by decide)).1⟩

-- ── C3: checklist filler lemmas ──────────────────────────────────

/-- Whether `setCell` writes this value (neither `undefined` nor `''`). -/
def writes (v : Option Value) : Prop :=
  v ≠ none ∧ v ≠ some (Value.s "")

instance (v : Option Value) : Decidable (writes v) := by
  unfold writes
  infer_instance

theorem setCell_cells (ws : Worksheet) (r c : Nat) (v : Option Value) (r' c' : Nat) :
    (setCell ws r c v).cells r' c' =
      if writes v ∧ r' = r ∧ c' = c then { ws.cells r' c' with value := v }
      else ws.cells r' c' := by
  unfold setCell writes
  by_cases hskip : v = none ∨ v = some (Value.s "")
  · rw [if_pos hskip]
    have : ¬ ((v ≠ none ∧ v ≠ some (Value.s "")) ∧ r' = r ∧ c' = c) := by
      rintro ⟨⟨hn, hs⟩, -⟩
      rcases hskip with h | h
      · exact hn h
      · exact hs h
    rw [if_neg this]
  · rw [if_neg hskip]
    push_neg at hskip
    simp only [Worksheet.putCell, Worksheet.getCell]
    by_cases h : r' = r ∧ c' = c
    · rw [if_pos h, if_pos ⟨hskip, h⟩, h.1, h.2]
    · rw [if_neg h, if_neg (fun hx => h hx.2)]

theorem setCell_rowCount (ws : Worksheet) (r c : Nat) (v : Option Value) :
    (setCell ws r c v).rowCount = ws.rowCount := by
  unfold setCell
  split <;> rfl

/-- `setCell` at a column other than 1 does not change any column-1 value. -/
theorem setCell_col1 (ws : Worksheet) (r c : Nat) (v : Option Value) (hc : c ≠ 1)
    (r' : Nat) : ((setCell ws r c v).cells r' 1).value = (ws.cells r' 1).value := by
  rw [setCell_cells]
  have : ¬ (writes v ∧ r' = r ∧ 1 = c) := fun hx => hc hx.2.2.symm
  rw [if_neg this]

/-- The address map only depends on the row count and the column-1 values. -/
theorem buildCodeToRowMap_ext (ws1 ws2 : Worksheet)
    (hrc : ws1.rowCount = ws2.rowCount)
    (hcol : ∀ r, (ws1.cells r 1).value = (ws2.cells r 1).value) :
    buildCodeToRowMap ws1 = buildCodeToRowMap ws2 := by
  unfold buildCodeToRowMap
  rw [hrc]
  apply List.foldl_ext
  intro acc r _
  simp only [Worksheet.getCell, hcol r]

/-- Any binding of `mapSet` is the new binding or an old one. -/
theorem mem_mapSet (m : List (String × Nat)) (k : String) (v : Nat)
    (p : String × Nat) (hp : p ∈ mapSet m k v) :
    p = (k, v) ∨ p ∈ m := by
  unfold mapSet at hp
  split at hp
  · simp only [List.mem_map] at hp
    obtain ⟨q, hq, heq⟩ := hp
    by_cases hqk : q.1 == k
    · rw [if_pos hqk] at heq
      exact Or.inl heq.symm
    · rw [if_neg hqk] at heq
      exact Or.inr (heq ▸ hq)
  · rcases List.mem_append.mp hp with h | h
    · exact Or.inr h
    · simp only [List.mem_singleton] at h
      exact Or.inl h

/-- Every binding of the address map records the trimmed column-1 text of
its row. -/
theorem buildCodeToRowMap_mem (ws : Worksheet) (p : String × Nat)
    (hp : p ∈ buildCodeToRowMap ws) :
    p.1 = trimJS (cellText (ws.cells p.2 1).value) := by
  unfold buildCodeToRowMap at hp
  suffices h : ∀ (rows : List Nat) (acc : List (String × Nat)),
      (∀ q ∈ acc, q.1 = trimJS (cellText (ws.cells q.2 1).value)) →
      ∀ q ∈ rows.foldl
        (fun m rowNumber =>
          let val := trimJS (cellText (ws.getCell rowNumber 1).value)
          if isCodeShape val then mapSet m val rowNumber else m)
        acc, q.1 = trimJS (cellText (ws.cells q.2 1).value) by
    exact h (List.range' 1 ws.rowCount) [] (by intro q hq; exact absurd hq (List.not_mem_nil q)) p hp
  intro rows
  induction rows with
  | nil => intro acc hacc q hq; exact hacc q hq
  | cons row rest ih =>
    intro acc hacc q hq
    simp only [List.foldl_cons] at hq
    apply ih _ _ q hq
    intro q' hq'
    by_cases hshape : isCodeShape (trimJS (cellText (ws.getCell row 1).value))
    · rw [if_pos hshape] at hq'
      rcases mem_mapSet _ _ _ _ hq' with heq | hmem
      · subst heq
        rfl
      · exact hacc q' hmem
    · rw [if_neg hshape] at hq'
      exact hacc q' hq'

theorem mapGet_mem (m : List (String × Nat)) (k : String) (r : Nat)
    (h : mapGet m k = some r) : (k, r) ∈ m := by
  unfold mapGet at h
  cases hf : m.find? (fun p => p.1 == k) with
  | none => rw [hf] at h; cases h
  | some p =>
    rw [hf] at h
    have hr : p.2 = r := Option.some.inj h
    have h1 := List.find?_some hf
    have h2 := List.mem_of_find?_eq_some hf
    have h3 : p.1 = k := by
      simpa [beq_iff_eq] using h1
    obtain ⟨a, b⟩ := p
    simp only at h3 hr
    rw [← h3, ← hr]
    exact h2

/-- Two codes resolving to the same row are the same code: the map can
only bind a row's own column-1 text to that row. -/
theorem mapGet_inj (ws : Worksheet) (k1 k2 : String) (r : Nat)
    (h1 : mapGet (buildCodeToRowMap ws) k1 = some r)
    (h2 : mapGet (buildCodeToRowMap ws) k2 = some r) : k1 = k2 := by
  have m1 := buildCodeToRowMap_mem ws (k1, r) (mapGet_mem _ _ _ h1)
  have m2 := buildCodeToRowMap_mem ws (k2, r) (mapGet_mem _ _ _ h2)
  simp only at m1 m2
  rw [m1, m2]

theorem writes_strV (s : String) : writes (strV s) ↔ s ≠ "" := by
  unfold writes strV
  constructor
  · rintro ⟨-, h2⟩ he
    exact h2 (by rw [he])
  · intro h
    refine ⟨by simp, ?_⟩
    intro hx
    apply h
    have := Option.some.inj hx
    exact Value.s.inj this

/-- A step leaves untouched every cell it has no nonempty write for. -/
theorem checklistStep_untouched (codeToRow : List (String × Nat)) (acc : Worksheet)
    (item : ChecklistItem) (r' c' : Nat)
    (h : ¬ (mapGet codeToRow item.sectionCode = some r' ∧
        ((c' = 3 ∧ item.status ≠ "") ∨ (c' = 4 ∧ item.notes ≠ "")))) :
    (checklistStep codeToRow acc item).cells r' c' = acc.cells r' c' := by
  unfold checklistStep
  cases hmg : mapGet codeToRow item.sectionCode with
  | none => rfl
  | some row =>
    dsimp only
    have hno3 : ¬ (writes (strV item.status) ∧ r' = row ∧ c' = 3) := by
      rintro ⟨hw, hr, hc⟩
      exact h ⟨by rw [hmg, hr], Or.inl ⟨hc, (writes_strV _).mp hw⟩⟩
    have hno4 : ¬ (writes (strV item.notes) ∧ r' = row ∧ c' = 4) := by
      rintro ⟨hw, hr, hc⟩
      exact h ⟨by rw [hmg, hr], Or.inr ⟨hc, (writes_strV _).mp hw⟩⟩
    by_cases hs : item.status ≠ ""
    · by_cases hn : item.notes ≠ ""
      · rw [if_pos hs, if_pos hn, setCell_cells, if_neg hno4, setCell_cells, if_neg hno3]
      · rw [if_pos hs, if_neg hn, setCell_cells, if_neg hno3]
    · by_cases hn : item.notes ≠ ""
      · rw [if_neg hs, if_pos hn, setCell_cells, if_neg hno4]
      · rw [if_neg hs, if_neg hn]

/-- When the item resolves to row `r` and its status is nonempty, the step
writes the status into (r, 3), preserving the style. -/
theorem checklistStep_status_write (codeToRow : List (String × Nat)) (acc : Worksheet)
    (item : ChecklistItem) (r : Nat)
    (hmg : mapGet codeToRow item.sectionCode = some r) (hs : item.status ≠ "") :
    (checklistStep codeToRow acc item).cells r 3 =
      { acc.cells r 3 with value := strV item.status } := by
  unfold checklistStep
  rw [hmg]
  dsimp only
  have hpos : writes (strV item.status) ∧ r = r ∧ (3 : Nat) = 3 :=
    ⟨(writes_strV _).mpr hs, rfl, rfl⟩
  by_cases hn : item.notes ≠ ""
  · rw [if_pos hs, if_pos hn, setCell_cells,
      if_neg (fun hx => by omega), setCell_cells, if_pos hpos]
  · rw [if_pos hs, if_neg hn, setCell_cells, if_pos hpos]

/-- When the item resolves to row `r` and its notes are nonempty, the step
writes the notes into (r, 4), preserving the style. -/
theorem checklistStep_notes_write (codeToRow : List (String × Nat)) (acc : Worksheet)
    (item : ChecklistItem) (r : Nat)
    (hmg : mapGet codeToRow item.sectionCode = some r) (hn : item.notes ≠ "") :
    (checklistStep codeToRow acc item).cells r 4 =
      { acc.cells r 4 with value := strV item.notes } := by
  unfold checklistStep
  rw [hmg]
  dsimp only
  have hpos : writes (strV item.notes) ∧ r = r ∧ (4 : Nat) = 4 :=
    ⟨(writes_strV _).mpr hn, rfl, rfl⟩
  by_cases hs : item.status ≠ ""
  · rw [if_pos hs, if_pos hn, setCell_cells, if_pos hpos, setCell_cells,
      if_neg (fun hx => by omega)]
  · rw [if_neg hs, if_pos hn, setCell_cells, if_pos hpos]

/-- The checklist fold leaves untouched every cell no item writes. -/
theorem checklist_fold_untouched (codeToRow : List (String × Nat))
    (items : List ChecklistItem) (r' c' : Nat) :
    ∀ acc : Worksheet,
      (∀ it ∈ items, ¬ (mapGet codeToRow it.sectionCode = some r' ∧
          ((c' = 3 ∧ it.status ≠ "") ∨ (c' = 4 ∧ it.notes ≠ "")))) →
      (items.foldl (checklistStep codeToRow) acc).cells r' c' = acc.cells r' c' := by
  induction items with
  | nil => intro acc _; rfl
  | cons it rest ih =>
    intro acc hno
    rw [List.foldl_cons, ih _ (fun it' h => hno it' (List.mem_cons_of_mem it h)),
      checklistStep_untouched _ _ _ _ _ (hno it (List.mem_cons_self it rest))]

/-- The final value of a resolved item's status and notes cells: the item's
own write when nonempty, the pre-fold cell otherwise. -/
theorem checklist_fold_at (codeToRow : List (String × Nat))
    (hinj : ∀ k1 k2 r0, mapGet codeToRow k1 = some r0 →
      mapGet codeToRow k2 = some r0 → k1 = k2)
    (items : List ChecklistItem)
    (hnodup : (items.map (fun it => it.sectionCode)).Nodup)
    (item : ChecklistItem) (hitem : item ∈ items) (r : Nat)
    (hrow : mapGet codeToRow item.sectionCode = some r) :
    ∀ acc : Worksheet,
      (items.foldl (checklistStep codeToRow) acc).cells r 3 =
        (if item.status ≠ "" then { acc.cells r 3 with value := strV item.status }
         else acc.cells r 3) ∧
      (items.foldl (checklistStep codeToRow) acc).cells r 4 =
        (if item.notes ≠ "" then { acc.cells r 4 with value := strV item.notes }
         else acc.cells r 4) := by
  induction items with
  | nil => exact absurd hitem (List.not_mem_nil item)
  | cons it rest ih =>
    intro acc
    have hhead : it.sectionCode ∉ rest.map (fun it => it.sectionCode) :=
      (List.nodup_cons.mp hnodup).1
    have htail : (rest.map (fun it => it.sectionCode)).Nodup :=
      (List.nodup_cons.mp hnodup).2
    rcases List.mem_cons.mp hitem with heq | hmem
    · subst heq
      have hrest : ∀ it' ∈ rest, ¬ (mapGet codeToRow it'.sectionCode = some r) := by
        intro it' hit' hmg'
        have : it'.sectionCode = item.sectionCode := hinj _ _ _ hmg' hrow
        exact hhead (this ▸ List.mem_map_of_mem (fun it => it.sectionCode) hit')
      constructor
      · rw [List.foldl_cons,
          checklist_fold_untouched codeToRow rest r 3 _
            (fun it' h hx => hrest it' h hx.1)]
        by_cases hs : item.status ≠ ""
        · rw [if_pos hs, checklistStep_status_write codeToRow acc item r hrow hs]
        · rw [if_neg hs]
          apply checklistStep_untouched
          rintro ⟨-, hor⟩
          rcases hor with ⟨-, hst⟩ | ⟨hc, -⟩
          · exact hs hst
          · omega
      · rw [List.foldl_cons,
          checklist_fold_untouched codeToRow rest r 4 _
            (fun it' h hx => hrest it' h hx.1)]
        by_cases hn : item.notes ≠ ""
        · rw [if_pos hn, checklistStep_notes_write codeToRow acc item r hrow hn]
        · rw [if_neg hn]
          apply checklistStep_untouched
          rintro ⟨-, hor⟩
          rcases hor with ⟨hc, -⟩ | ⟨-, hnt⟩
          · omega
          · exact hn hnt
    · have hne : it.sectionCode ≠ item.sectionCode := by
        intro hx
        exact hhead (hx ▸ List.mem_map_of_mem (fun it => it.sectionCode) hmem)
      have hstep : ∀ c', c' = 3 ∨ c' = 4 →
          (checklistStep codeToRow acc it).cells r c' = acc.cells r c' := by
        intro c' _
        apply checklistStep_untouched
        rintro ⟨hmg', -⟩
        exact hne (hinj _ _ _ hmg' hrow)
      have := ih htail hmem (checklistStep codeToRow acc it)
      rw [List.foldl_cons]
      constructor
      · rw [this.1, hstep 3 (Or.inl rfl)]
      · rw [this.2, hstep 4 (Or.inr rfl)]

/-- The header writes touch only the four fixed meta cells. -/
theorem fillChecklistMeta_untouched (ws : Worksheet) (insp : Inspection) (r' c' : Nat)
    (h : ¬ ((r' = 2 ∧ c' = 2) ∨ (r' = 2 ∧ c' = 4) ∨ (r' = 3 ∧ c' = 2) ∨ (r' = 3 ∧ c' = 4))) :
    (fillChecklistMeta ws insp).cells r' c' = ws.cells r' c' := by
  unfold fillChecklistMeta
  have h22 : ¬ (r' = 2 ∧ c' = 2) := fun hx => h (Or.inl hx)
  have h24 : ¬ (r' = 2 ∧ c' = 4) := fun hx => h (Or.inr (Or.inl hx))
  have h32 : ¬ (r' = 3 ∧ c' = 2) := fun hx => h (Or.inr (Or.inr (Or.inl hx)))
  have h34 : ¬ (r' = 3 ∧ c' = 4) := fun hx => h (Or.inr (Or.inr (Or.inr hx)))
  by_cases hsig : insp.meta.signatureText ≠ ""
  · rw [if_pos hsig, setCell_cells, if_neg (fun hx => h34 hx.2), setCell_cells,
      if_neg (fun hx => h32 hx.2), setCell_cells, if_neg (fun hx => h24 hx.2),
      setCell_cells, if_neg (fun hx => h22 hx.2)]
  · rw [if_neg hsig, setCell_cells, if_neg (fun hx => h32 hx.2), setCell_cells,
      if_neg (fun hx => h24 hx.2), setCell_cells, if_neg (fun hx => h22 hx.2)]

theorem fillChecklistMeta_rowCount (ws : Worksheet) (insp : Inspection) :
    (fillChecklistMeta ws insp).rowCount = ws.rowCount := by
  unfold fillChecklistMeta
  by_cases hsig : insp.meta.signatureText ≠ "" <;>
    simp [hsig, setCell_rowCount]

/-- The header writes do not move the address map. -/
theorem fillChecklistMeta_map (ws : Worksheet) (insp : Inspection) :
    buildCodeToRowMap (fillChecklistMeta ws insp) = buildCodeToRowMap ws := by
  apply buildCodeToRowMap_ext
  · exact fillChecklistMeta_rowCount ws insp
  · intro r
    rw [fillChecklistMeta_untouched ws insp r 1 (by omega)]

/-- C3 (amended): for a checklist with pairwise-distinct section codes,
every item whose code the addressing scan resolves to a row `r` gets its
status written to (r, 3) iff nonempty, and — provided `r` is not one of
the fixed header rows 2 and 3, which the meta writes own — its notes
written to (r, 4) iff nonempty, with the pre-fill value kept otherwise;
apart from the four fixed header cells, no cell outside the resolved
nonempty writes changes (unresolved codes and empty fields are silent
no-ops). -/
theorem fillChecklistSheet_spec (ws : Worksheet) (insp : Inspection)
    (item : ChecklistItem) (r : Nat)
    (hnodup : (insp.checklist.map (fun it => it.sectionCode)).Nodup)
    (hitem : item ∈ insp.checklist)
    (hrow : mapGet (buildCodeToRowMap ws) item.sectionCode = some r) :
    (((fillChecklistSheet ws insp).cells r 3).value =
      if item.status ≠ "" then some (Value.s item.status) else (ws.cells r 3).value) ∧
    (r ≠ 2 → r ≠ 3 →
      ((fillChecklistSheet ws insp).cells r 4).value =
        if item.notes ≠ "" then some (Value.s item.notes) else (ws.cells r 4).value) ∧
    (∀ r' c', (fillChecklistSheet ws insp).cells r' c' ≠ ws.cells r' c' →
      ((r' = 2 ∧ c' = 2) ∨ (r' = 2 ∧ c' = 4) ∨ (r' = 3 ∧ c' = 2) ∨ (r' = 3 ∧ c' = 4)) ∨
      ∃ it ∈ insp.checklist, mapGet (buildCodeToRowMap ws) it.sectionCode = some r' ∧
        ((c' = 3 ∧ it.status ≠ "") ∨ (c' = 4 ∧ it.notes ≠ ""))) := by
  have hinj : ∀ k1 k2 r0, mapGet (buildCodeToRowMap ws) k1 = some r0 →
      mapGet (buildCodeToRowMap ws) k2 = some r0 → k1 = k2 :=
    fun k1 k2 r0 h1 h2 => mapGet_inj ws k1 k2 r0 h1 h2
  have hfill : fillChecklistSheet ws insp =
      insp.checklist.foldl (checklistStep (buildCodeToRowMap ws)) (fillChecklistMeta ws insp) := by
    simp only [fillChecklistSheet]
    rw [fillChecklistMeta_map]
  have hat := checklist_fold_at (buildCodeToRowMap ws) hinj insp.checklist hnodup item hitem r
    hrow (fillChecklistMeta ws insp)
  refine ⟨?_, ?_, ?_⟩
  · rw [hfill, hat.1]
    have hm3 : (fillChecklistMeta ws insp).cells r 3 = ws.cells r 3 :=
      fillChecklistMeta_untouched ws insp r 3 (by omega)
    by_cases hs : item.status ≠ ""
    · rw [if_pos hs, if_pos hs]
      rfl
    · rw [if_neg hs, if_neg hs, hm3]
  · intro hr2 hr3
    rw [hfill, hat.2]
    have hm4 : (fillChecklistMeta ws insp).cells r 4 = ws.cells r 4 :=
      fillChecklistMeta_untouched ws insp r 4 (by omega)
    by_cases hn : item.notes ≠ ""
    · rw [if_pos hn, if_pos hn]
      rfl
    · rw [if_neg hn, if_neg hn, hm4]
  · intro r' c' hne
    by_cases hex : ∃ it ∈ insp.checklist,
        mapGet (buildCodeToRowMap ws) it.sectionCode = some r' ∧
        ((c' = 3 ∧ it.status ≠ "") ∨ (c' = 4 ∧ it.notes ≠ ""))
    · exact Or.inr hex
    · left
      by_contra hmeta
      apply hne
      rw [hfill, checklist_fold_untouched (buildCodeToRowMap ws) insp.checklist r' c'
        (fillChecklistMeta ws insp) (fun it h hx => hex ⟨it, h, hx⟩),
        fillChecklistMeta_untouched ws insp r' c' hmeta]

/-- A template sheet whose row 2 carries a section code in column 1 —
the same row the header writes own. -/
def wsCodeRow2 : Worksheet :=
  { name := "checklist", rowCount := 2
    cells := fun r c =>
      if r = 2 ∧ c = 1 then { blankCell with value := some (Value.s "1.1") }
      else blankCell
    tables := [] }

/-- An inspection whose only checklist item resolves to row 2 with empty
status and notes, and whose date is nonempty. -/
def inspCodeRow2 : Inspection :=
  { meta := { siteName := "", inspectionDate := "2026-01-02"
              inspectorName := "", signatureText := "" }
    inverterConfigs := []
    checklist := [{ sectionCode := "1.1", description := "", status := "", notes := "" }]
    dcMeasurements := []
    acMeasurements := []
    inverterSerials := []
    defects := [] }

/-- C3 counterexample: the item's code resolves, its notes are empty, yet
the notes cell of its row does not keep its pre-fill value — the header
date write (D2) lands on the same cell, refuting the claim's unconditional
`otherwise the pre-fill cell value is unchanged`. -/
theorem fillChecklistSheet_empty_notes_cell_changed :
    mapGet (buildCodeToRowMap wsCodeRow2) "1.1" = some 2 ∧
    (inspCodeRow2.checklist.map (fun it => it.sectionCode)).Nodup ∧
    ((fillChecklistSheet wsCodeRow2 inspCodeRow2).cells 2 4).value ≠
      (wsCodeRow2.cells 2 4).value := by
  decide

/-- A five-row template sheet with a section code in row 5. -/
def wsCodeRow5 : Worksheet :=
  { name := "checklist", rowCount := 5
    cells := fun r c =>
      if r = 5 ∧ c = 1 then { blankCell with value := some (Value.s "1.2") }
      else blankCell
    tables := [] }

def itemRow5 : ChecklistItem :=
  { sectionCode := "1.2", description := "d", status := "תקין", notes := "note" }

def inspCodeRow5 : Inspection :=
  { meta := { siteName := "site", inspectionDate := "2026-01-02"
              inspectorName := "i", signatureText := "" }
    inverterConfigs := []
    checklist := [itemRow5]
    dcMeasurements := []
    acMeasurements := []
    inverterSerials := []
    defects := [] }

theorem fillChecklistSheet_spec_witness :
    ((inspCodeRow5.checklist.map (fun it => it.sectionCode)).Nodup ∧
     itemRow5 ∈ inspCodeRow5.checklist ∧
     mapGet (buildCodeToRowMap wsCodeRow5) itemRow5.sectionCode = some 5) ∧
    ((fillChecklistSheet wsCodeRow5 inspCodeRow5).cells 5 3).value =
      (if itemRow5.status ≠ "" then some (Value.s itemRow5.status)
       else (wsCodeRow5.cells 5 3).value) :=
  ⟨⟨by decide, by decide, by decide⟩,
   (fillChecklistSheet_spec wsCodeRow5 inspCodeRow5 itemRow5 5
      (by decide) (by decide) (by decide)).1⟩

-- ── C5: serial placement in the AC sheet ─────────────────────────

/-- A fold whose step preserves an observation preserves it. -/
theorem foldl_preserve {α : Type} {γ : Type} (g : Worksheet → γ)
    (f : Worksheet → α → Worksheet) (l : List α)
    (hf : ∀ ws a, g (f ws a) = g ws) :
    ∀ ws : Worksheet, g (l.foldl f ws) = g ws := by
  induction l with
  | nil => intro ws; rfl
  | cons a rest ih =>
    intro ws
    rw [List.foldl_cons, ih, hf]

theorem setCell_other_col (ws : Worksheet) (r c : Nat) (v : Option Value)
    (r' c' : Nat) (h : c' ≠ c) : (setCell ws r c v).cells r' c' = ws.cells r' c' := by
  rw [setCell_cells, if_neg (fun hx => h hx.2.2)]

theorem acStep_rowCount (codeToRow : List (String × Nat)) (acc : Worksheet)
    (m : AcMeasurement) : (acStep codeToRow acc m).rowCount = acc.rowCount := by
  unfold acStep
  repeat' split
  all_goals simp [setCell_rowCount]

theorem acStep_col2 (codeToRow : List (String × Nat)) (acc : Worksheet)
    (m : AcMeasurement) (r' : Nat) :
    (acStep codeToRow acc m).cells r' 2 = acc.cells r' 2 := by
  unfold acStep
  repeat' split
  all_goals simp [setCell_other_col]

/-- The AC-measurement phase writes only columns 3 and 4, so the marker
scan sees the same column-B texts as the template sheet. -/
theorem fillAcMeasurements_markerRows (ws : Worksheet) (insp : Inspection) :
    serialMarkerRows (fillAcMeasurements ws insp) = serialMarkerRows ws := by
  unfold serialMarkerRows
  have hrc : (fillAcMeasurements ws insp).rowCount = ws.rowCount := by
    unfold fillAcMeasurements
    exact foldl_preserve (fun w => w.rowCount) _ _ (acStep_rowCount _) ws
  have hcol : ∀ r', (fillAcMeasurements ws insp).cells r' 2 = ws.cells r' 2 := by
    intro r'
    unfold fillAcMeasurements
    exact foldl_preserve (fun w => w.cells r' 2) _ _ (fun w a => acStep_col2 _ w a r') ws
  rw [hrc]
  apply List.filter_congr
  intro r _
  simp only [Worksheet.getCell, hcol r]

theorem serialMarkerRows_nodup (ws : Worksheet) : (serialMarkerRows ws).Nodup :=
  List.Nodup.filter _ (List.nodup_range' 1 ws.rowCount)

theorem serialStep_untouched (rows : List Nat) (acc : Worksheet) (s : InverterSerial)
    (r' c' : Nat)
    (h : ¬ (serialWritten rows s ∧ r' = rows.getD (s.inverterIndex - 1) 0 ∧ c' = 3)) :
    (serialStep rows acc s).cells r' c' = acc.cells r' c' := by
  unfold serialStep
  split
  · next hcond =>
    rw [setCell_cells, if_neg (fun hx => h ⟨hcond, hx.2⟩)]
  · rfl

theorem serialStep_write (rows : List Nat) (acc : Worksheet) (s : InverterSerial)
    (h : serialWritten rows s) :
    (serialStep rows acc s).cells (rows.getD (s.inverterIndex - 1) 0) 3 =
      { acc.cells (rows.getD (s.inverterIndex - 1) 0) 3 with
          value := strV s.serialNumber } := by
  unfold serialStep
  rw [if_pos h, setCell_cells,
    if_pos ⟨(writes_strV _).mpr h.2.2, rfl, rfl⟩]

theorem serial_fold_untouched (rows : List Nat) (serials : List InverterSerial)
    (r' c' : Nat) :
    ∀ acc : Worksheet,
      (∀ s ∈ serials, ¬ (serialWritten rows s ∧
          r' = rows.getD (s.inverterIndex - 1) 0 ∧ c' = 3)) →
      (serials.foldl (serialStep rows) acc).cells r' c' = acc.cells r' c' := by
  induction serials with
  | nil => intro acc _; rfl
  | cons s rest ih =>
    intro acc hno
    rw [List.foldl_cons, ih _ (fun s' h => hno s' (List.mem_cons_of_mem s h)),
      serialStep_untouched _ _ _ _ _ (hno s (List.mem_cons_self s rest))]

/-- Two valid serials with distinct inverter indices target distinct
marker rows. -/
theorem serial_targets_inj (rows : List Nat) (hnd : rows.Nodup)
    (s1 s2 : InverterSerial) (h1 : serialWritten rows s1) (h2 : serialWritten rows s2)
    (heq : rows.getD (s1.inverterIndex - 1) 0 = rows.getD (s2.inverterIndex - 1) 0) :
    s1.inverterIndex = s2.inverterIndex := by
  obtain ⟨h11, h12, -⟩ := h1
  obtain ⟨h21, h22, -⟩ := h2
  rw [List.getD_eq_getElem rows 0 h12, List.getD_eq_getElem rows 0 h22] at heq
  have hv : s1.inverterIndex - 1 = s2.inverterIndex - 1 :=
    (List.Nodup.getElem_inj_iff hnd).mp heq
  omega

/-- Final value of a written serial's target cell after the serial loop. -/
theorem serial_fold_at (rows : List Nat) (hnd : rows.Nodup)
    (serials : List InverterSerial)
    (hdist : (serials.map (fun s => s.inverterIndex)).Nodup)
    (serial : InverterSerial) (hmem : serial ∈ serials)
    (hw : serialWritten rows serial) :
    ∀ acc : Worksheet,
      ((serials.foldl (serialStep rows) acc).cells
          (rows.getD (serial.inverterIndex - 1) 0) 3).value =
        some (Value.s serial.serialNumber) := by
  induction serials with
  | nil => exact absurd hmem (List.not_mem_nil serial)
  | cons s rest ih =>
    intro acc
    have hhead : s.inverterIndex ∉ rest.map (fun s => s.inverterIndex) :=
      (List.nodup_cons.mp hdist).1
    have htail : (rest.map (fun s => s.inverterIndex)).Nodup :=
      (List.nodup_cons.mp hdist).2
    rcases List.mem_cons.mp hmem with heq | hmem'
    · subst heq
      have hrest : ∀ s' ∈ rest, ¬ (serialWritten rows s' ∧
          rows.getD (serial.inverterIndex - 1) 0 = rows.getD (s'.inverterIndex - 1) 0 ∧
          (3 : Nat) = 3) := by
        rintro s' hs' ⟨hw', htgt, -⟩
        have : s'.inverterIndex = serial.inverterIndex :=
          serial_targets_inj rows hnd s' serial hw' hw htgt.symm
        exact hhead (this ▸ List.mem_map_of_mem (fun s => s.inverterIndex) hs')
      rw [List.foldl_cons, serial_fold_untouched rows rest _ _ _ hrest,
        serialStep_write rows acc serial hw]
      rfl
    · have hne : s.inverterIndex ≠ serial.inverterIndex := by
        intro hx
        exact hhead (hx ▸ List.mem_map_of_mem (fun s => s.inverterIndex) hmem')
      rw [List.foldl_cons]
      have hstep : (serialStep rows acc s).cells
          (rows.getD (serial.inverterIndex - 1) 0) 3 =
          acc.cells (rows.getD (serial.inverterIndex - 1) 0) 3 := by
        apply serialStep_untouched
        rintro ⟨hw', htgt, -⟩
        exact hne (serial_targets_inj rows hnd s serial hw' hw htgt.symm)
      rw [ih htail hmem' _]

/-- C5 (amended): the AC filler writes each inverter's nonempty serial
into the marker row selected by `inverterIndex − 1` — the Nth marker row
in document order for inverter N, which coincides with the serial's list
position only when the serials are exactly inverters 1..n in order — and a
serial whose inverter index falls outside the marker rows, or whose value
is empty, is silently dropped (the serial loop changes no other cell). -/
theorem fillAcSheet_serials_spec (ws : Worksheet) (insp : Inspection)
    (serial : InverterSerial)
    (hdist : (insp.inverterSerials.map (fun s => s.inverterIndex)).Nodup)
    (hmem : serial ∈ insp.inverterSerials) :
    (serialWritten (serialMarkerRows ws) serial →
      ((fillAcSheet ws insp).cells
          ((serialMarkerRows ws).getD (serial.inverterIndex - 1) 0) 3).value =
        some (Value.s serial.serialNumber)) ∧
    (∀ r' c', (fillAcSheet ws insp).cells r' c' ≠ (fillAcMeasurements ws insp).cells r' c' →
      ∃ s ∈ insp.inverterSerials, serialWritten (serialMarkerRows ws) s ∧
        r' = (serialMarkerRows ws).getD (s.inverterIndex - 1) 0 ∧ c' = 3) := by
  have hrows : serialMarkerRows (fillAcMeasurements ws insp) = serialMarkerRows ws :=
    fillAcMeasurements_markerRows ws insp
  have hfill : fillAcSheet ws insp =
      insp.inverterSerials.foldl (serialStep (serialMarkerRows ws))
        (fillAcMeasurements ws insp) := by
    simp only [fillAcSheet]
    rw [hrows]
  constructor
  · intro hw
    rw [hfill]
    exact serial_fold_at (serialMarkerRows ws) (serialMarkerRows_nodup ws)
      insp.inverterSerials hdist serial hmem hw (fillAcMeasurements ws insp)
  · intro r' c' hne
    by_cases hex : ∃ s ∈ insp.inverterSerials, serialWritten (serialMarkerRows ws) s ∧
        r' = (serialMarkerRows ws).getD (s.inverterIndex - 1) 0 ∧ c' = 3
    · exact hex
    · exfalso
      apply hne
      rw [hfill, serial_fold_untouched (serialMarkerRows ws) insp.inverterSerials r' c'
        (fillAcMeasurements ws insp) (fun s h hx => hex ⟨s, h, hx⟩)]

/-- An AC sheet with two marker rows (rows 2 and 3). -/
def wsTwoMarkers : Worksheet :=
  { name := "ac", rowCount := 3
    cells := fun r c =>
      if r = 2 ∧ c = 2 then { blankCell with value := some (Value.s "מהפך 1") }
      else if r = 3 ∧ c = 2 then { blankCell with value := some (Value.s "מהפך 2") }
      else blankCell
    tables := [] }

/-- An inspection whose serial list is the single entry for inverter 2 —
sorted by inverter index, with list position 0. -/
def inspSerial2 : Inspection :=
  { meta := { siteName := "", inspectionDate := "", inspectorName := "", signatureText := "" }
    inverterConfigs := []
    checklist := []
    dcMeasurements := []
    acMeasurements := []
    inverterSerials := [{ inverterIndex := 2, serialNumber := "SN" }]
    defects := [] }

/-- C5 counterexample: with marker rows [2, 3] and the sorted serial list
`[inverter 2 ↦ "SN"]`, the claim places "SN" in the first marker row (its
list position is 0), but the code places it in the second marker row
(`inverterIndex − 1 = 1`) and leaves the first one untouched. -/
theorem fillAcSheet_serial_position_mismatch :
    serialMarkerRows wsTwoMarkers = [2, 3] ∧
    ((fillAcSheet wsTwoMarkers inspSerial2).cells 2 3).value ≠ some (Value.s "SN") ∧
    ((fillAcSheet wsTwoMarkers inspSerial2).cells 3 3).value = some (Value.s "SN") := by
  decide

theorem fillAcSheet_serials_spec_witness :
    ((inspSerial2.inverterSerials.map (fun s => s.inverterIndex)).Nodup ∧
     { inverterIndex := 2, serialNumber := "SN" } ∈ inspSerial2.inverterSerials ∧
     serialWritten (serialMarkerRows wsTwoMarkers)
       { inverterIndex := 2, serialNumber := "SN" }) ∧
    ((fillAcSheet wsTwoMarkers inspSerial2).cells
        ((serialMarkerRows wsTwoMarkers).getD
          (({ inverterIndex := 2, serialNumber := "SN" } : InverterSerial).inverterIndex - 1)
          0) 3).value =
      some (Value.s ({ inverterIndex := 2, serialNumber := "SN" } : InverterSerial).serialNumber) :=
  ⟨⟨by decide, by decide, by decide⟩,
   (fillAcSheet_serials_spec wsTwoMarkers inspSerial2
      { inverterIndex := 2, serialNumber := "SN" } (by decide) (by decide)).1 (by decide)⟩

-- ── C2: depth-first order of getOrderedDcTree ────────────────────

/-- `a` occurs strictly before `b` in the list. -/
def Before {α : Type} (L : List α) (a b : α) : Prop :=
  ∃ l1 l2, L = l1 ++ a :: l2 ∧ b ∈ l2

theorem Before_nil {α : Type} (a b : α) : ¬ Before ([] : List α) a b := by
  rintro ⟨l1, l2, h, -⟩
  cases l1 <;> simp at h

theorem Before_cons {α : Type} (x : α) (xs : List α) (a b : α) :
    Before (x :: xs) a b ↔ (x = a ∧ b ∈ xs) ∨ Before xs a b := by
  constructor
  · rintro ⟨l1, l2, h, hb⟩
    cases l1 with
    | nil =>
      simp only [List.nil_append, List.cons.injEq] at h
      exact Or.inl ⟨h.1, h.2 ▸ hb⟩
    | cons y t =>
      simp only [List.cons_append, List.cons.injEq] at h
      exact Or.inr ⟨t, l2, h.2, hb⟩
  · rintro (⟨hx, hb⟩ | ⟨l1, l2, h, hb⟩)
    · exact ⟨[], xs, by simp [hx], hb⟩
    · exact ⟨x :: l1, l2, by simp [h], hb⟩

instance decBefore {α : Type} [DecidableEq α] :
    ∀ (L : List α) (a b : α), Decidable (Before L a b)
  | [], a, b => isFalse (Before_nil a b)
  | x :: xs, a, b =>
    haveI := decBefore xs a b
    decidable_of_iff _ (Before_cons x xs a b).symm

theorem Before_mem_left {α : Type} {L : List α} {a b : α} (h : Before L a b) : a ∈ L := by
  obtain ⟨l1, l2, hL, -⟩ := h
  rw [hL]
  exact List.mem_append_right l1 (List.mem_cons_self a l2)

theorem Before_mem_right {α : Type} {L : List α} {a b : α} (h : Before L a b) : b ∈ L := by
  obtain ⟨l1, l2, hL, hb⟩ := h
  rw [hL]
  exact List.mem_append_right l1 (List.mem_cons_of_mem a hb)

/-- In a duplicate-free list, the split at an element is unique. -/
theorem split_unique {α : Type} (a : α) :
    ∀ (l1 m1 l2 m2 : List α), (l1 ++ a :: l2).Nodup → l1 ++ a :: l2 = m1 ++ a :: m2 →
      l1 = m1 ∧ l2 = m2 := by
  intro l1
  induction l1 with
  | nil =>
    intro m1 l2 m2 hnd heq
    cases m1 with
    | nil =>
      simp only [List.nil_append, List.cons.injEq] at heq
      exact ⟨rfl, heq.2⟩
    | cons y t =>
      simp only [List.nil_append, List.cons_append, List.cons.injEq] at heq
      exfalso
      have ha : a ∈ t ++ a :: m2 := List.mem_append_right t (List.mem_cons_self a m2)
      rw [← heq.2] at ha
      rw [List.nil_append] at hnd
      exact (List.nodup_cons.mp hnd).1 ha
  | cons x t ih =>
    intro m1 l2 m2 hnd heq
    cases m1 with
    | nil =>
      simp only [List.cons_append, List.nil_append, List.cons.injEq] at heq
      exfalso
      obtain ⟨hxa, -⟩ := heq
      subst hxa
      rw [List.cons_append] at hnd
      have ha : x ∈ t ++ x :: l2 := List.mem_append_right t (List.mem_cons_self x l2)
      exact (List.nodup_cons.mp hnd).1 ha
    | cons y m =>
      simp only [List.cons_append, List.cons.injEq] at heq
      have hnd' : (t ++ a :: l2).Nodup := by
        rw [List.cons_append] at hnd
        exact (List.nodup_cons.mp hnd).2
      obtain ⟨h1, h2⟩ := ih m l2 m2 hnd' heq.2
      exact ⟨by rw [heq.1, h1], h2⟩

theorem Before_irrefl {α : Type} {L : List α} (hnd : L.Nodup) (a : α) :
    ¬ Before L a a := by
  rintro ⟨l1, l2, hL, ha⟩
  rw [hL] at hnd
  have := (List.nodup_cons.mp (List.Nodup.of_append_right hnd)).1
  exact this ha

theorem Before_trans {α : Type} {L : List α} (hnd : L.Nodup) {a b c : α}
    (h1 : Before L a b) (h2 : Before L b c) : Before L a c := by
  obtain ⟨l1, l2, hL, hb⟩ := h1
  obtain ⟨m1, m2, hM, hc⟩ := h2
  obtain ⟨u, v, huv⟩ := List.append_of_mem hb
  have hL2 : L = (l1 ++ a :: u) ++ b :: v := by
    rw [hL, huv]
    simp
  have hnd2 : ((l1 ++ a :: u) ++ b :: v).Nodup := hL2 ▸ hnd
  obtain ⟨-, h2eq⟩ := split_unique b (l1 ++ a :: u) m1 v m2 hnd2 (hL2.symm.trans hM)
  refine ⟨l1, l2, hL, ?_⟩
  rw [huv]
  apply List.mem_append_right
  apply List.mem_cons_of_mem
  rw [h2eq]
  exact hc

theorem Before_asymm {α : Type} {L : List α} (hnd : L.Nodup) {a b : α}
    (h1 : Before L a b) (h2 : Before L b a) : False :=
  Before_irrefl hnd a (Before_trans hnd h1 h2)

theorem Before_ne {α : Type} {L : List α} (hnd : L.Nodup) {a b : α}
    (h : Before L a b) : a ≠ b := by
  rintro rfl
  exact Before_irrefl hnd a h

/-- Embedding a segment into a larger list preserves the order. -/
theorem Before_embed {α : Type} {L : List α} {a b : α} (u v : List α)
    (h : Before L a b) : Before (u ++ L ++ v) a b := by
  obtain ⟨l1, l2, hL, hb⟩ := h
  refine ⟨u ++ l1, l2 ++ v, ?_, List.mem_append_left _ hb⟩
  rw [hL]
  simp

/-- Filtering preserves the relative order of surviving elements. -/
theorem Before_filter {α : Type} {L : List α} {a b : α} (p : α → Bool)
    (h : Before L a b) (hpa : p a = true) (hpb : p b = true) :
    Before (L.filter p) a b := by
  obtain ⟨l1, l2, hL, hb⟩ := h
  refine ⟨l1.filter p, l2.filter p, ?_, List.mem_filter.mpr ⟨hb, hpb⟩⟩
  rw [hL, List.filter_append, List.filter_cons, if_pos hpa]

/-- An element of the first part comes before any element of the second. -/
theorem Before_append_parts {α : Type} {L1 L2 : List α} {a b : α}
    (ha : a ∈ L1) (hb : b ∈ L2) : Before (L1 ++ L2) a b := by
  obtain ⟨u, v, huv⟩ := List.append_of_mem ha
  refine ⟨u, v ++ L2, ?_, List.mem_append_right v hb⟩
  rw [huv]
  simp

/-- One parent-link step inside a measurement list: `p` is the parent of
`x`. -/
def StepF (F : List DcStringMeasurement) (x p : DcStringMeasurement) : Prop :=
  x ∈ F ∧ p ∈ F ∧ x.parentId = some p.id

/-- Membership in the subtree that `walk(parentId)` is supposed to emit:
either a direct child of `parentId`, or below some direct child. -/
inductive Under (F : List DcStringMeasurement) : Option String → DcStringMeasurement → Prop
  | here {pid : Option String} {x : DcStringMeasurement} :
      x ∈ F → x.parentId = pid → Under F pid x
  | there {pid : Option String} {c x : DcStringMeasurement} :
      c ∈ F → c.parentId = pid → Under F (some c.id) x → Under F pid x

theorem Under.mem {F : List DcStringMeasurement} {pid : Option String}
    {x : DcStringMeasurement} (h : Under F pid x) : x ∈ F := by
  induction h with
  | here hx _ => exact hx
  | there _ _ _ ih => exact ih

/-- Id-injectivity on a list with duplicate-free ids. -/
theorem idInj {F : List DcStringMeasurement}
    (hids : (F.map (fun m => m.id)).Nodup) {a b : DcStringMeasurement}
    (ha : a ∈ F) (hb : b ∈ F) (h : a.id = b.id) : a = b :=
  List.inj_on_of_nodup_map hids ha hb h

/-- The resolvable-ordered-parent hypothesis, at the filtered-list level. -/
def ParentsBefore (F : List DcStringMeasurement) : Prop :=
  ∀ x ∈ F, ∀ pid, x.parentId = some pid →
    ∃ p ∈ F, p.id = pid ∧ Before F p x

theorem step_det {F : List DcStringMeasurement}
    (hids : (F.map (fun m => m.id)).Nodup) {x p₁ p₂ : DcStringMeasurement}
    (h1 : StepF F x p₁) (h2 : StepF F x p₂) : p₁ = p₂ := by
  obtain ⟨-, hp1, he1⟩ := h1
  obtain ⟨-, hp2, he2⟩ := h2
  apply idInj hids hp1 hp2
  have := he1.symm.trans he2
  exact Option.some.inj this

theorem step_before {F : List DcStringMeasurement}
    (hids : (F.map (fun m => m.id)).Nodup) (hpb : ParentsBefore F)
    {x p : DcStringMeasurement} (h : StepF F x p) : Before F p x := by
  obtain ⟨hx, hp, he⟩ := h
  obtain ⟨p', hp', hpid, hbef⟩ := hpb x hx p.id he
  have : p' = p := idInj hids hp' hp hpid
  exact this ▸ hbef

theorem desc_before {F : List DcStringMeasurement}
    (hnd : F.Nodup) (hids : (F.map (fun m => m.id)).Nodup) (hpb : ParentsBefore F)
    {x a : DcStringMeasurement} (h : Relation.TransGen (StepF F) x a) : Before F a x := by
  induction h with
  | single hstep => exact step_before hids hpb hstep
  | tail _ hstep ih =>
    exact Before_trans hnd (step_before hids hpb hstep) ih

theorem desc_irrefl {F : List DcStringMeasurement}
    (hnd : F.Nodup) (hids : (F.map (fun m => m.id)).Nodup) (hpb : ParentsBefore F)
    (x : DcStringMeasurement) : ¬ Relation.TransGen (StepF F) x x :=
  fun h => Before_irrefl hnd x (desc_before hnd hids hpb h)

theorem desc_mem_right {F : List DcStringMeasurement} {x a : DcStringMeasurement}
    (h : Relation.TransGen (StepF F) x a) : a ∈ F := by
  induction h with
  | single hstep => exact hstep.2.1
  | tail _ hstep _ => exact hstep.2.1

theorem desc_mem_left {F : List DcStringMeasurement} {x a : DcStringMeasurement}
    (h : Relation.TransGen (StepF F) x a) : x ∈ F := by
  induction h with
  | single hstep => exact hstep.1
  | tail ih _ ihh => exact ihh

/-- Head decomposition of a transitive chain. -/
theorem transGen_cases_head {α : Type} {r : α → α → Prop} {a c : α}
    (h : Relation.TransGen r a c) :
    r a c ∨ ∃ b, r a b ∧ Relation.TransGen r b c := by
  obtain ⟨b, hab, hbc⟩ := Relation.TransGen.head'_iff.mp h
  rcases Relation.ReflTransGen.cases_head hbc with heq | ⟨d, hbd, hdc⟩
  · subst heq
    exact Or.inl hab
  · exact Or.inr ⟨b, hab, Relation.TransGen.head' hbd hdc⟩

/-- Ancestors of one node are totally ordered by the ancestor relation. -/
theorem anc_total {F : List DcStringMeasurement}
    (hids : (F.map (fun m => m.id)).Nodup) {x a b : DcStringMeasurement}
    (h1 : Relation.TransGen (StepF F) x a) (h2 : Relation.TransGen (StepF F) x b) :
    a = b ∨ Relation.TransGen (StepF F) a b ∨ Relation.TransGen (StepF F) b a := by
  induction h1 using Relation.TransGen.head_induction_on with
  | base hstep =>
    rcases transGen_cases_head h2 with hsb | ⟨z, hz, hzb⟩
    · exact Or.inl (step_det hids hstep hsb)
    · have : z = a := step_det hids hz hstep
      subst this
      exact Or.inr (Or.inl hzb)
  | ih hstep hrest ih =>
    rcases transGen_cases_head h2 with hsb | ⟨z, hz, hzb⟩
    · have : b = _ := step_det hids hsb hstep
      subst this
      exact Or.inr (Or.inr hrest)
    · have : z = _ := step_det hids hz hstep
      subst this
      exact ih hzb

/-- A sibling is never a strict ancestor. -/
theorem sib_not_anc {F : List DcStringMeasurement}
    (hnd : F.Nodup) (hids : (F.map (fun m => m.id)).Nodup) (hpb : ParentsBefore F)
    {c₁ c₂ : DcStringMeasurement} (hc₁ : c₁ ∈ F)
    (hsib : c₁.parentId = c₂.parentId) :
    ¬ Relation.TransGen (StepF F) c₂ c₁ := by
  intro h
  rcases transGen_cases_head h with hstep | ⟨z, hz, hzc⟩
  · have : c₁.parentId = some c₁.id := by rw [hsib, hstep.2.2]
    exact desc_irrefl hnd hids hpb c₁
      (Relation.TransGen.single ⟨hc₁, hc₁, this⟩)
  · have hstep1 : StepF F c₁ z := ⟨hc₁, hz.2.1, by rw [hsib, hz.2.2]⟩
    exact desc_irrefl hnd hids hpb z
      (Relation.TransGen.trans hzc (Relation.TransGen.single hstep1))

/-- Subtrees of two distinct siblings are disjoint (including the sibling
roots themselves). -/
theorem sib_disjoint {F : List DcStringMeasurement}
    (hnd : F.Nodup) (hids : (F.map (fun m => m.id)).Nodup) (hpb : ParentsBefore F)
    {c₁ c₂ w : DcStringMeasurement} (hc₁ : c₁ ∈ F) (hc₂ : c₂ ∈ F)
    (hsib : c₁.parentId = c₂.parentId) (hne : c₁ ≠ c₂)
    (h1 : w = c₁ ∨ Relation.TransGen (StepF F) w c₁)
    (h2 : w = c₂ ∨ Relation.TransGen (StepF F) w c₂) : False := by
  rcases h1 with rfl | ht1
  · rcases h2 with rfl | ht2
    · exact hne rfl
    · exact sib_not_anc hnd hids hpb hc₂ hsib.symm ht2
  · rcases h2 with rfl | ht2
    · exact sib_not_anc hnd hids hpb hc₁ hsib ht1
    · rcases anc_total hids ht1 ht2 with heq | hanc | hanc
      · exact hne heq
      · exact sib_not_anc hnd hids hpb hc₂ hsib.symm hanc
      · exact sib_not_anc hnd hids hpb hc₁ hsib hanc

/-- From a subtree membership to the ancestor chain. -/
theorem under_desc {F : List DcStringMeasurement} {pid : Option String}
    {x : DcStringMeasurement} (h : Under F pid x) :
    ∀ c ∈ F, pid = some c.id → Relation.TransGen (StepF F) x c := by
  induction h with
  | here hx hpar =>
    intro c hc hcid
    exact Relation.TransGen.single ⟨hx, hc, by rw [hpar, hcid]⟩
  | there hc' hpar' hsub ih =>
    intro c hc hcid
    have h1 := ih _ hc' rfl
    exact Relation.TransGen.tail h1 ⟨hc', hc, by rw [hpar', hcid]⟩

/-- From the ancestor chain to subtree membership. -/
theorem desc_under {F : List DcStringMeasurement} {x a : DcStringMeasurement}
    (h : Relation.TransGen (StepF F) x a) : Under F (some a.id) x := by
  induction h with
  | single hstep => exact Under.here hstep.1 hstep.2.2
  | tail hprev hstep ih => exact Under.there hstep.1 hstep.2.2 ih

/-- Extending subtree membership down one parent link. -/
theorem under_extend {F : List DcStringMeasurement} {pid : Option String}
    {p : DcStringMeasurement} (h : Under F pid p) :
    ∀ x ∈ F, x.parentId = some p.id → Under F pid x := by
  induction h with
  | here hp hppar =>
    intro x hx hpar
    exact Under.there hp hppar (Under.here hx hpar)
  | there hc hcpar hsub ih =>
    intro x hx hpar
    exact Under.there hc hcpar (ih x hx hpar)

theorem mem_childrenOf {F : List DcStringMeasurement} {pid : Option String}
    {x : DcStringMeasurement} :
    x ∈ childrenOf F pid ↔ x ∈ F ∧ x.parentId = pid := by
  simp [childrenOf, List.mem_filter]

/-- Enough fuel for the walk at `pid`: a suffix of `F` containing all the
direct children of `pid`, shorter than the fuel. -/
def Avail (F : List DcStringMeasurement) (pid : Option String) (fuel : Nat) : Prop :=
  ∃ t, t <:+ F ∧ (∀ x ∈ F, x.parentId = pid → x ∈ t) ∧ t.length < fuel

theorem avail_init (F : List DcStringMeasurement) (pid : Option String) :
    Avail F pid (F.length + 1) :=
  ⟨F, List.suffix_refl F, fun x hx _ => hx, Nat.lt_succ_self _⟩

theorem avail_step {F : List DcStringMeasurement}
    (hnd : F.Nodup) (hids : (F.map (fun m => m.id)).Nodup) (hpb : ParentsBefore F)
    {pid : Option String} {fuel : Nat} {c : DcStringMeasurement}
    (hav : Avail F pid (fuel + 1)) (hc : c ∈ F) (hcp : c.parentId = pid) :
    Avail F (some c.id) fuel := by
  obtain ⟨t, hsuf, hchild, hlen⟩ := hav
  have hct : c ∈ t := hchild c hc hcp
  obtain ⟨t1, t2, ht⟩ := List.append_of_mem hct
  obtain ⟨s, hs⟩ := hsuf
  have hF2 : F = (s ++ t1) ++ c :: t2 := by
    rw [← hs, ht]
    simp
  refine ⟨t2, ⟨s ++ t1 ++ [c], by rw [hF2]; simp⟩, ?_, ?_⟩
  · intro x hx hxp
    obtain ⟨p, hpF, hpid, hbef⟩ := hpb x hx c.id hxp
    have hpc : p = c := idInj hids hpF hc hpid
    subst hpc
    obtain ⟨m1, m2, hFm, hxm⟩ := hbef
    obtain ⟨-, h2⟩ := split_unique p m1 (s ++ t1) m2 t2 (hFm ▸ hnd) (hFm.symm.trans hF2)
    rw [← h2]
    exact hxm
  · have hlt : t.length = t1.length + 1 + t2.length := by
      rw [ht]
      simp [List.length_append]
      omega
    omega

theorem walk_sound (F : List DcStringMeasurement) :
    ∀ (fuel : Nat) (pid : Option String) (d : Nat) (x : DcStringMeasurement) (k : Nat),
      (x, k) ∈ walkDc F fuel pid d → Under F pid x := by
  intro fuel
  induction fuel with
  | zero =>
    intro pid d x k hmem
    simp [walkDc] at hmem
  | succ fuel ih =>
    intro pid d x k hmem
    simp only [walkDc, List.mem_flatMap] at hmem
    obtain ⟨c, hc, hmem2⟩ := hmem
    have hcF := mem_childrenOf.mp hc
    rcases List.mem_cons.mp hmem2 with heq | hmem3
    · have hx : x = c := congrArg Prod.fst heq
      subst hx
      exact Under.here hcF.1 hcF.2
    · exact Under.there hcF.1 hcF.2 (ih _ _ _ _ hmem3)

theorem walk_complete {F : List DcStringMeasurement}
    (hnd : F.Nodup) (hids : (F.map (fun m => m.id)).Nodup) (hpb : ParentsBefore F)
    {pid : Option String} {x : DcStringMeasurement} (h : Under F pid x) :
    ∀ (fuel : Nat) (d : Nat), Avail F pid fuel → ∃ k, (x, k) ∈ walkDc F fuel pid d := by
  induction h with
  | @here pid0 x0 hx hpar =>
    intro fuel d hav
    obtain ⟨t, -, -, hlen⟩ := hav
    cases fuel with
    | zero => omega
    | succ f =>
      refine ⟨d, ?_⟩
      simp only [walkDc, List.mem_flatMap]
      exact ⟨x0, mem_childrenOf.mpr ⟨hx, hpar⟩, List.mem_cons_self _ _⟩
  | there hc hcpar hsub ih =>
    intro fuel d hav
    cases fuel with
    | zero =>
      obtain ⟨t, -, -, hlen⟩ := hav
      omega
    | succ f =>
      have hav' := avail_step hnd hids hpb hav hc hcpar
      obtain ⟨k, hk⟩ := ih f (d + 1) hav'
      refine ⟨k, ?_⟩
      simp only [walkDc, List.mem_flatMap]
      exact ⟨_, mem_childrenOf.mpr ⟨hc, hcpar⟩, List.mem_cons_of_mem _ hk⟩

/-- Splitting a walk at one child of the processed parent. -/
theorem walk_decomp (F : List DcStringMeasurement) (fuel : Nat) (pid : Option String)
    (d : Nat) {u v : List DcStringMeasurement} {c : DcStringMeasurement}
    (hC : childrenOf F pid = u ++ c :: v) :
    walkDc F (fuel + 1) pid d =
      u.flatMap (fun m => (m, d) :: walkDc F fuel (some m.id) (d + 1)) ++
      ((c, d) :: walkDc F fuel (some c.id) (d + 1)) ++
      v.flatMap (fun m => (m, d) :: walkDc F fuel (some m.id) (d + 1)) := by
  simp only [walkDc]
  rw [hC, List.flatMap_append, List.flatMap_cons, ← List.append_assoc]

theorem walk_nodup {F : List DcStringMeasurement}
    (hnd : F.Nodup) (hids : (F.map (fun m => m.id)).Nodup) (hpb : ParentsBefore F) :
    ∀ (fuel : Nat) (pid : Option String) (d : Nat),
      ((walkDc F fuel pid d).map (fun q => q.1)).Nodup := by
  intro fuel
  induction fuel with
  | zero =>
    intro pid d
    simp [walkDc]
  | succ fuel ih =>
    intro pid d
    simp only [walkDc, List.map_flatMap]
    rw [List.nodup_flatMap]
    constructor
    · intro c hc
      simp only [List.map_cons]
      rw [List.nodup_cons]
      refine ⟨?_, ih _ _⟩
      intro hcin
      obtain ⟨⟨x, k⟩, hxk, hx⟩ := List.mem_map.mp hcin
      simp only at hx
      subst hx
      have hcF := mem_childrenOf.mp hc
      have hu := walk_sound F fuel _ _ _ _ hxk
      exact desc_irrefl hnd hids hpb _ (under_desc hu _ hcF.1 rfl)
    · have hCnd : (childrenOf F pid).Nodup := List.Nodup.filter _ hnd
      apply List.Pairwise.imp_of_mem ?_ hCnd
      intro c₁ c₂ h1 h2 hne
      intro w hw1 hw2
      have hc₁ := mem_childrenOf.mp h1
      have hc₂ := mem_childrenOf.mp h2
      simp only [List.map_cons] at hw1 hw2
      have ha1 : w = c₁ ∨ Relation.TransGen (StepF F) w c₁ := by
        rcases List.mem_cons.mp hw1 with heq | hmm
        · exact Or.inl heq
        · obtain ⟨⟨x, k⟩, hxk, hx⟩ := List.mem_map.mp hmm
          simp only at hx
          subst hx
          exact Or.inr (under_desc (walk_sound F fuel _ _ _ _ hxk) _ hc₁.1 rfl)
      have ha2 : w = c₂ ∨ Relation.TransGen (StepF F) w c₂ := by
        rcases List.mem_cons.mp hw2 with heq | hmm
        · exact Or.inl heq
        · obtain ⟨⟨x, k⟩, hxk, hx⟩ := List.mem_map.mp hmm
          simp only at hx
          subst hx
          exact Or.inr (under_desc (walk_sound F fuel _ _ _ _ hxk) _ hc₂.1 rfl)
      exact sib_disjoint hnd hids hpb hc₁.1 hc₂.1 (hc₁.2.trans hc₂.2.symm) hne ha1 ha2

/-- Every member of a well-formed forest is reachable from the roots. -/
theorem all_under_none {F : List DcStringMeasurement}
    (hnd : F.Nodup) (hids : (F.map (fun m => m.id)).Nodup) (hpb : ParentsBefore F) :
    ∀ x ∈ F, Under F none x := by
  suffices H : ∀ n (l1 : List DcStringMeasurement) (x : DcStringMeasurement) l2,
      F = l1 ++ x :: l2 → l1.length = n → Under F none x by
    intro x hx
    obtain ⟨l1, l2, h⟩ := List.append_of_mem hx
    exact H l1.length l1 x l2 h rfl
  intro n
  induction n using Nat.strong_induction_on with
  | _ n ih =>
    intro l1 x l2 hF hlen
    have hx : x ∈ F := by
      rw [hF]
      exact List.mem_append_right _ (List.mem_cons_self _ _)
    cases hxp : x.parentId with
    | none => exact Under.here hx hxp
    | some pid =>
      obtain ⟨p, hpF, hpid, hbef⟩ := hpb x hx pid hxp
      obtain ⟨m1, m2, hFm, hxm⟩ := hbef
      obtain ⟨u, v, huv⟩ := List.append_of_mem hxm
      have hF2 : F = (m1 ++ p :: u) ++ x :: v := by
        rw [hFm, huv]
        simp
      obtain ⟨he1, -⟩ := split_unique x l1 (m1 ++ p :: u) l2 v (hF ▸ hnd) (hF.symm.trans hF2)
      have hlt : m1.length < n := by
        rw [← hlen, he1, List.length_append, List.length_cons]
        omega
      have hFp : F = m1 ++ p :: (u ++ x :: v) := by
        rw [hF2]
        simp
      have hup : Under F none p := ih m1.length hlt m1 p (u ++ x :: v) hFp rfl
      exact under_extend hup x hx (by rw [hxp, hpid])

/-- In a walk's output, every emitted node precedes all of its
descendants. -/
theorem walk_anc_before {F : List DcStringMeasurement}
    (hnd : F.Nodup) (hids : (F.map (fun m => m.id)).Nodup) (hpb : ParentsBefore F) :
    ∀ (fuel : Nat) (pid : Option String) (d : Nat), Avail F pid fuel →
      ∀ a b ka, (a, ka) ∈ walkDc F fuel pid d →
        Relation.TransGen (StepF F) b a →
        Before ((walkDc F fuel pid d).map (fun q => q.1)) a b := by
  intro fuel
  induction fuel with
  | zero =>
    intro pid d hav a b ka hmem
    simp [walkDc] at hmem
  | succ fuel ih =>
    intro pid d hav a b ka hmem hdesc
    have hmem' := hmem
    simp only [walkDc, List.mem_flatMap] at hmem'
    obtain ⟨c, hcC, hmem2⟩ := hmem'
    obtain ⟨u, v, hC⟩ := List.append_of_mem hcC
    have hcF := mem_childrenOf.mp hcC
    have hav' : Avail F (some c.id) fuel := avail_step hnd hids hpb hav hcF.1 hcF.2
    have hdecomp := walk_decomp F fuel pid d hC
    rcases List.mem_cons.mp hmem2 with heq | hmem3
    · have hac : a = c := congrArg Prod.fst heq
      subst hac
      have hub : Under F (some a.id) b := desc_under hdesc
      obtain ⟨kb, hkb⟩ := walk_complete hnd hids hpb hub fuel (d + 1) hav'
      rw [hdecomp]
      refine ⟨(u.flatMap (fun m => (m, d) :: walkDc F fuel (some m.id) (d + 1))).map
          (fun q => q.1),
        ((walkDc F fuel (some a.id) (d + 1)).map (fun q => q.1)) ++
          ((v.flatMap (fun m => (m, d) :: walkDc F fuel (some m.id) (d + 1))).map
            (fun q => q.1)), ?_, ?_⟩
      · simp
      · exact List.mem_append_left _ (List.mem_map.mpr ⟨(b, kb), hkb, rfl⟩)
    · have hbef := ih (some c.id) (d + 1) hav' a b ka hmem3 hdesc
      have hgoal : (walkDc F (fuel + 1) pid d).map (fun q => q.1) =
          ((u.flatMap (fun m => (m, d) :: walkDc F fuel (some m.id) (d + 1))).map
              (fun q => q.1) ++ [c]) ++
            (walkDc F fuel (some c.id) (d + 1)).map (fun q => q.1) ++
            (v.flatMap (fun m => (m, d) :: walkDc F fuel (some m.id) (d + 1))).map
              (fun q => q.1) := by
        rw [hdecomp]
        simp
      rw [hgoal]
      exact Before_embed _ _ hbef

/-- In a walk's output, siblings appear in their `F`-order, and a node's
whole subtree precedes any later sibling. -/
theorem walk_sib {F : List DcStringMeasurement}
    (hnd : F.Nodup) (hids : (F.map (fun m => m.id)).Nodup) (hpb : ParentsBefore F) :
    ∀ (fuel : Nat) (pid : Option String) (d : Nat), Avail F pid fuel →
      ∀ a s ka ks, (a, ka) ∈ walkDc F fuel pid d → (s, ks) ∈ walkDc F fuel pid d →
        a.parentId = s.parentId → Before F a s →
        Before ((walkDc F fuel pid d).map (fun q => q.1)) a s ∧
        (∀ b, Relation.TransGen (StepF F) b a →
          Before ((walkDc F fuel pid d).map (fun q => q.1)) b s) := by
  intro fuel
  induction fuel with
  | zero =>
    intro pid d hav a s ka ks hmema
    simp [walkDc] at hmema
  | succ fuel ih =>
    intro pid d hav a s ka ks hmema hmems hsib hbefF
    have hmema' := hmema
    have hmems' := hmems
    simp only [walkDc, List.mem_flatMap] at hmema' hmems'
    obtain ⟨ca, hcaC, hmema2⟩ := hmema'
    obtain ⟨cs, hcsC, hmems2⟩ := hmems'
    have hcaF := mem_childrenOf.mp hcaC
    have hcsF := mem_childrenOf.mp hcsC
    rcases List.mem_cons.mp hmema2 with heqa | hsub_a
    · -- a is a direct child here
      have h1 : a = ca := congrArg Prod.fst heqa
      subst h1
      rcases List.mem_cons.mp hmems2 with heqs | hsub_s
      · -- s is a direct child here too
        have h2 : s = cs := congrArg Prod.fst heqs
        subst h2
        have hbefC : Before (childrenOf F pid) a s := by
          unfold childrenOf
          apply Before_filter _ hbefF
          · exact beq_iff_eq.mpr hcaF.2
          · exact beq_iff_eq.mpr hcsF.2
        obtain ⟨u, w, hCd, hsw⟩ := hbefC
        have hav' : Avail F (some a.id) fuel := avail_step hnd hids hpb hav hcaF.1 hcaF.2
        have hdecomp := walk_decomp F fuel pid d hCd
        have hsV : s ∈ ((w.flatMap
            (fun m => (m, d) :: walkDc F fuel (some m.id) (d + 1))).map (fun q => q.1)) := by
          apply List.mem_map.mpr
          refine ⟨(s, d), ?_, rfl⟩
          exact List.mem_flatMap.mpr ⟨s, hsw, List.mem_cons_self _ _⟩
        constructor
        · rw [hdecomp]
          refine ⟨(u.flatMap (fun m => (m, d) :: walkDc F fuel (some m.id) (d + 1))).map
              (fun q => q.1),
            ((walkDc F fuel (some a.id) (d + 1)).map (fun q => q.1)) ++
              ((w.flatMap (fun m => (m, d) :: walkDc F fuel (some m.id) (d + 1))).map
                (fun q => q.1)), ?_, ?_⟩
          · simp
          · exact List.mem_append_right _ hsV
        · intro b hdesc
          have hub : Under F (some a.id) b := desc_under hdesc
          obtain ⟨kb, hkb⟩ := walk_complete hnd hids hpb hub fuel (d + 1) hav'
          have hbW : b ∈ (walkDc F fuel (some a.id) (d + 1)).map (fun q => q.1) :=
            List.mem_map.mpr ⟨(b, kb), hkb, rfl⟩
          obtain ⟨p1, p2, hp⟩ := List.append_of_mem hbW
          rw [hdecomp]
          refine ⟨(u.flatMap (fun m => (m, d) :: walkDc F fuel (some m.id) (d + 1))).map
              (fun q => q.1) ++ a :: p1,
            p2 ++ ((w.flatMap (fun m => (m, d) :: walkDc F fuel (some m.id) (d + 1))).map
              (fun q => q.1)), ?_, ?_⟩
          · rw [List.map_append, List.map_append, List.map_cons, hp]
            simp
          · exact List.mem_append_right _ hsV
      · -- s strictly below its sibling cs: impossible
        exfalso
        have hus : Under F (some cs.id) s := walk_sound F fuel _ _ _ _ hsub_s
        have hdesc : Relation.TransGen (StepF F) s cs := under_desc hus _ hcsF.1 rfl
        have hsp : cs.parentId = s.parentId := by
          rw [hcsF.2, ← hcaF.2, hsib]
        exact sib_not_anc hnd hids hpb hcsF.1 hsp hdesc
    · rcases List.mem_cons.mp hmems2 with heqs | hsub_s
      · -- a strictly below its sibling ca: impossible
        exfalso
        have h2 : s = cs := congrArg Prod.fst heqs
        subst h2
        have hua : Under F (some ca.id) a := walk_sound F fuel _ _ _ _ hsub_a
        have hdesc : Relation.TransGen (StepF F) a ca := under_desc hua _ hcaF.1 rfl
        have hap : ca.parentId = a.parentId := by
          rw [hcaF.2, ← hcsF.2, hsib]
        exact sib_not_anc hnd hids hpb hcaF.1 hap hdesc
      · -- both below direct children
        by_cases hcc : ca = cs
        · subst hcc
          have hav' : Avail F (some ca.id) fuel := avail_step hnd hids hpb hav hcaF.1 hcaF.2
          have hih := ih (some ca.id) (d + 1) hav' a s ka ks hsub_a hsub_s hsib hbefF
          obtain ⟨u, v, hC⟩ := List.append_of_mem hcaC
          have hgoal : (walkDc F (fuel + 1) pid d).map (fun q => q.1) =
              ((u.flatMap (fun m => (m, d) :: walkDc F fuel (some m.id) (d + 1))).map
                  (fun q => q.1) ++ [ca]) ++
                (walkDc F fuel (some ca.id) (d + 1)).map (fun q => q.1) ++
                (v.flatMap (fun m => (m, d) :: walkDc F fuel (some m.id) (d + 1))).map
                  (fun q => q.1) := by
            rw [walk_decomp F fuel pid d hC]
            simp
          rw [hgoal]
          exact ⟨Before_embed _ _ hih.1, fun b hb => Before_embed _ _ (hih.2 b hb)⟩
        · -- distinct sibling subtrees sharing the nodes' common parent
          exfalso
          have hua : Under F (some ca.id) a := walk_sound F fuel _ _ _ _ hsub_a
          have hus : Under F (some cs.id) s := walk_sound F fuel _ _ _ _ hsub_s
          have hda : Relation.TransGen (StepF F) a ca := under_desc hua _ hcaF.1 rfl
          have hds : Relation.TransGen (StepF F) s cs := under_desc hus _ hcsF.1 rfl
          obtain hsa | ⟨za, hza, hzca⟩ := transGen_cases_head hda
          · -- a.parentId = some ca.id
            obtain hss | ⟨zs, hzs, hzcs⟩ := transGen_cases_head hds
            · -- s.parentId = some cs.id; common parent forces ca = cs
              have : ca = cs := by
                apply idInj hids hcaF.1 hcsF.1
                have h1 := hsa.2.2
                have h2 := hss.2.2
                rw [hsib] at h1
                exact Option.some.inj (h1.symm.trans h2)
              exact hcc this
            · have : ca = zs := by
                apply idInj hids hcaF.1 hzs.2.1
                have h1 := hsa.2.2
                have h2 := hzs.2.2
                rw [hsib] at h1
                exact Option.some.inj (h1.symm.trans h2)
              subst this
              exact sib_disjoint hnd hids hpb hcaF.1 hcsF.1
                (hcaF.2.trans hcsF.2.symm) hcc (Or.inl rfl) (Or.inr hzcs)
          · obtain hss | ⟨zs, hzs, hzcs⟩ := transGen_cases_head hds
            · have : za = cs := by
                apply idInj hids hza.2.1 hcsF.1
                have h1 := hza.2.2
                have h2 := hss.2.2
                rw [hsib] at h1
                exact Option.some.inj (h1.symm.trans h2)
              subst this
              exact sib_disjoint hnd hids hpb hcaF.1 hcsF.1
                (hcaF.2.trans hcsF.2.symm) hcc (Or.inr hzca) (Or.inl rfl)
            · have : za = zs := by
                apply idInj hids hza.2.1 hzs.2.1
                have h1 := hza.2.2
                have h2 := hzs.2.2
                rw [hsib] at h1
                exact Option.some.inj (h1.symm.trans h2)
              subst this
              exact sib_disjoint hnd hids hpb hcaF.1 hcsF.1
                (hcaF.2.trans hcsF.2.symm) hcc (Or.inr hzca) (Or.inr hzcs)

/-- The measurements of one inverter, in list order (the `forInverter`
filter of `getOrderedDcTree`). -/
def dcForest (ms : List DcStringMeasurement) (inverterIndex : Nat) :
    List DcStringMeasurement :=
  ms.filter (fun m => m.inverterIndex == inverterIndex)

theorem getOrderedDcTree_eq (ms : List DcStringMeasurement) (inv : Nat) :
    getOrderedDcTree ms inv =
      walkDc (dcForest ms inv) ((dcForest ms inv).length + 1) none 0 := rfl

/-- The well-formedness of stored measurement lists: ids are unique, and a
parent link always points at an earlier measurement of the same
inverter. -/
def WFMeasurements (ms : List DcStringMeasurement) : Prop :=
  (ms.map (fun m => m.id)).Nodup ∧
  ∀ x ∈ ms, x.parentId = none ∨ ∃ p, x.parentId = some p.id ∧
    p.inverterIndex = x.inverterIndex ∧ Before ms p x

instance (ms : List DcStringMeasurement) : Decidable (WFMeasurements ms) := by
  unfold WFMeasurements
  have : ∀ x : DcStringMeasurement, Decidable (x.parentId = none ∨ ∃ p, x.parentId = some p.id ∧
      p.inverterIndex = x.inverterIndex ∧ Before ms p x) := by
    intro x
    have hiff : (x.parentId = none ∨ ∃ p ∈ ms, x.parentId = some p.id ∧
        p.inverterIndex = x.inverterIndex ∧ Before ms p x) ↔
        (x.parentId = none ∨ ∃ p, x.parentId = some p.id ∧
          p.inverterIndex = x.inverterIndex ∧ Before ms p x) := by
      constructor
      · rintro (h | ⟨p, -, h2, h3, h4⟩)
        · exact Or.inl h
        · exact Or.inr ⟨p, h2, h3, h4⟩
      · rintro (h | ⟨p, h2, h3, h4⟩)
        · exact Or.inl h
        · exact Or.inr ⟨p, Before_mem_left h4, h2, h3, h4⟩
    exact decidable_of_iff _ hiff
  exact instDecidableAnd

/-- C2 (amended): on a well-formed measurement list, `getOrderedDcTree`
returns exactly the measurements of the requested inverter (a permutation
of the filtered list), in depth-first pre-order: every node precedes all
of its descendants, siblings appear in their insertion order, and a node's
whole subtree precedes every later sibling. -/
theorem getOrderedDcTree_spec (ms : List DcStringMeasurement) (inv : Nat)
    (hwf : WFMeasurements ms) :
    ((getOrderedDcTree ms inv).map (fun q => q.1)).Perm (dcForest ms inv) ∧
    (∀ a b, Relation.TransGen (StepF (dcForest ms inv)) b a →
      Before ((getOrderedDcTree ms inv).map (fun q => q.1)) a b) ∧
    (∀ a s, a ∈ dcForest ms inv → s ∈ dcForest ms inv → a.parentId = s.parentId →
      Before ms a s →
      Before ((getOrderedDcTree ms inv).map (fun q => q.1)) a s) ∧
    (∀ a s b, a ∈ dcForest ms inv → s ∈ dcForest ms inv → a.parentId = s.parentId →
      Before ms a s → Relation.TransGen (StepF (dcForest ms inv)) b a →
      Before ((getOrderedDcTree ms inv).map (fun q => q.1)) b s) := by
  obtain ⟨hids, hpar⟩ := hwf
  have hmsnd : ms.Nodup := List.Nodup.of_map _ hids
  have hndF : (dcForest ms inv).Nodup := List.Nodup.filter _ hmsnd
  have hidsF : ((dcForest ms inv).map (fun m => m.id)).Nodup :=
    List.Nodup.sublist (List.Sublist.map _ (List.filter_sublist ms)) hids
  have hpbF : ParentsBefore (dcForest ms inv) := by
    intro x hxF pid hxp
    have hx := List.mem_filter.mp hxF
    rcases hpar x hx.1 with hnone | ⟨p, hpe, hpinv, hbef⟩
    · rw [hnone] at hxp
      cases hxp
    · have hpidp : p.id = pid := Option.some.inj (hpe.symm.trans hxp)
      have hpass : (p.inverterIndex == inv) = true := by
        rw [beq_iff_eq] at hx ⊢
        rw [hpinv, hx.2]
      refine ⟨p, ?_, hpidp, ?_⟩
      · exact List.mem_filter.mpr ⟨Before_mem_left hbef, hpass⟩
      · exact Before_filter _ hbef hpass hx.2
  have hav : Avail (dcForest ms inv) none ((dcForest ms inv).length + 1) :=
    avail_init _ none
  rw [getOrderedDcTree_eq]
  refine ⟨?_, ?_, ?_, ?_⟩
  · rw [List.perm_ext_iff_of_nodup (walk_nodup hndF hidsF hpbF _ _ _) hndF]
    intro x
    constructor
    · intro hx
      obtain ⟨⟨y, k⟩, hyk, hy⟩ := List.mem_map.mp hx
      simp only at hy
      subst hy
      exact (walk_sound _ _ _ _ _ _ hyk).mem
    · intro hx
      have hu := all_under_none hndF hidsF hpbF x hx
      obtain ⟨k, hk⟩ := walk_complete hndF hidsF hpbF hu _ 0 hav
      exact List.mem_map.mpr ⟨(x, k), hk, rfl⟩
  · intro a b hdesc
    have haF : a ∈ dcForest ms inv := desc_mem_right hdesc
    have hu := all_under_none hndF hidsF hpbF a haF
    obtain ⟨ka, hka⟩ := walk_complete hndF hidsF hpbF hu _ 0 hav
    exact walk_anc_before hndF hidsF hpbF _ none 0 hav a b ka hka hdesc
  · intro a s haF hsF hsib hbefms
    have hbefF : Before (dcForest ms inv) a s := by
      apply Before_filter _ hbefms
      · exact (List.mem_filter.mp haF).2
      · exact (List.mem_filter.mp hsF).2
    obtain ⟨ka, hka⟩ := walk_complete hndF hidsF hpbF
      (all_under_none hndF hidsF hpbF a haF) _ 0 hav
    obtain ⟨ks, hks⟩ := walk_complete hndF hidsF hpbF
      (all_under_none hndF hidsF hpbF s hsF) _ 0 hav
    exact (walk_sib hndF hidsF hpbF _ none 0 hav a s ka ks hka hks hsib hbefF).1
  · intro a s b haF hsF hsib hbefms hdesc
    have hbefF : Before (dcForest ms inv) a s := by
      apply Before_filter _ hbefms
      · exact (List.mem_filter.mp haF).2
      · exact (List.mem_filter.mp hsF).2
    obtain ⟨ka, hka⟩ := walk_complete hndF hidsF hpbF
      (all_under_none hndF hidsF hpbF a haF) _ 0 hav
    obtain ⟨ks, hks⟩ := walk_complete hndF hidsF hpbF
      (all_under_none hndF hidsF hpbF s hsF) _ 0 hav
    exact (walk_sib hndF hidsF hpbF _ none 0 hav a s ka ks hka hks hsib hbefF).2 b hdesc

/-- A measurement whose parent id resolves to nothing. -/
def orphanDc : DcStringMeasurement :=
  { id := "a", parentId := some "ghost", inverterIndex := 1, stringLabel := "A"
    panelCount := none, openCircuitVoltage := none, operatingCurrent := none
    stringRiso := none, feedRisoNegative := none, feedRisoPositive := none }

/-- C2 counterexample: for a list containing a measurement whose parent id
does not resolve, `getOrderedDcTree` omits that measurement — it does not
return exactly the measurements of the inverter. -/
theorem getOrderedDcTree_not_exact :
    orphanDc ∈ dcForest [orphanDc] 1 ∧
    ¬ ((getOrderedDcTree [orphanDc] 1).map (fun q => q.1)).Perm (dcForest [orphanDc] 1) := by
  decide

/-- A three-node well-formed forest: roots A and B, child A.1 under A. -/
def dcA : DcStringMeasurement :=
  { id := "1", parentId := none, inverterIndex := 1, stringLabel := "A"
    panelCount := none, openCircuitVoltage := none, operatingCurrent := none
    stringRiso := none, feedRisoNegative := none, feedRisoPositive := none }

def dcA1 : DcStringMeasurement :=
  { id := "2", parentId := some "1", inverterIndex := 1, stringLabel := "A.1"
    panelCount := none, openCircuitVoltage := none, operatingCurrent := none
    stringRiso := none, feedRisoNegative := none, feedRisoPositive := none }

def dcB : DcStringMeasurement :=
  { id := "3", parentId := none, inverterIndex := 1, stringLabel := "B"
    panelCount := none, openCircuitVoltage := none, operatingCurrent := none
    stringRiso := none, feedRisoNegative := none, feedRisoPositive := none }

theorem getOrderedDcTree_spec_witness :
    WFMeasurements [dcA, dcA1, dcB] ∧
    (((getOrderedDcTree [dcA, dcA1, dcB] 1).map (fun q => q.1)).Perm
        (dcForest [dcA, dcA1, dcB] 1) ∧
     (∀ a b, Relation.TransGen (StepF (dcForest [dcA, dcA1, dcB] 1)) b a →
       Before ((getOrderedDcTree [dcA, dcA1, dcB] 1).map (fun q => q.1)) a b) ∧
     (∀ a s, a ∈ dcForest [dcA, dcA1, dcB] 1 → s ∈ dcForest [dcA, dcA1, dcB] 1 →
       a.parentId = s.parentId → Before [dcA, dcA1, dcB] a s →
       Before ((getOrderedDcTree [dcA, dcA1, dcB] 1).map (fun q => q.1)) a s) ∧
     (∀ a s b, a ∈ dcForest [dcA, dcA1, dcB] 1 → s ∈ dcForest [dcA, dcA1, dcB] 1 →
       a.parentId = s.parentId → Before [dcA, dcA1, dcB] a s →
       Relation.TransGen (StepF (dcForest [dcA, dcA1, dcB] 1)) b a →
       Before ((getOrderedDcTree [dcA, dcA1, dcB] 1).map (fun q => q.1)) b s)) :=
  ⟨by decide, getOrderedDcTree_spec [dcA, dcA1, dcB] 1 (by decide)⟩

-- ── C6: store-operation forest invariants ────────────────────────

/-- Every measurement whose parent link resolves within the list belongs
to the same inverter as its parent. -/
def SameInv (ms : List DcStringMeasurement) : Prop :=
  ∀ x ∈ ms, ∀ p ∈ ms, x.parentId = some p.id → p.inverterIndex = x.inverterIndex

instance (ms : List DcStringMeasurement) : Decidable (SameInv ms) := by
  unfold SameInv
  infer_instance

/-- No chain of three parent links (four levels) exists in the list —
the forest has maximum depth 3 (root, child, grandchild). -/
def No3Chain (ms : List DcStringMeasurement) : Prop :=
  ∀ a ∈ ms, ∀ b ∈ ms, ∀ c ∈ ms, ∀ d ∈ ms,
    ¬ (a.parentId = some b.id ∧ b.parentId = some c.id ∧ c.parentId = some d.id)

instance (ms : List DcStringMeasurement) : Decidable (No3Chain ms) := by
  unfold No3Chain
  infer_instance

theorem sameInv_subset {ms' ms : List DcStringMeasurement}
    (hsub : ms' ⊆ ms) (h : SameInv ms) : SameInv ms' :=
  fun x hx p hp hl => h x (hsub hx) p (hsub hp) hl

theorem no3_subset {ms' ms : List DcStringMeasurement}
    (hsub : ms' ⊆ ms) (h : No3Chain ms) : No3Chain ms' :=
  fun a ha b hb c hc d hd => h a (hsub ha) b (hsub hb) c (hsub hc) d (hsub hd)

/-- Appending one node keeps `SameInv` when nothing points at the new
node and the new node's own parent link is inverter-consistent. -/
theorem sameInv_snoc {ms : List DcStringMeasurement} {n : DcStringMeasurement}
    (hsame : SameInv ms)
    (hnoref : ∀ m ∈ ms, m.parentId ≠ some n.id)
    (hself : n.parentId ≠ some n.id)
    (hpar : ∀ p ∈ ms, n.parentId = some p.id → p.inverterIndex = n.inverterIndex) :
    SameInv (ms ++ [n]) := by
  intro x hx p hp hl
  rcases List.mem_append.mp hx with hx' | hx'
  · rcases List.mem_append.mp hp with hp' | hp'
    · exact hsame x hx' p hp' hl
    · have hpn : p = n := List.mem_singleton.mp hp'
      subst hpn
      exact absurd hl (hnoref x hx')
  · have hxn : x = n := List.mem_singleton.mp hx'
    rcases List.mem_append.mp hp with hp' | hp'
    · rw [hxn] at hl ⊢
      exact hpar p hp' hl
    · have hpn : p = n := List.mem_singleton.mp hp'
      rw [hxn, hpn] at hl
      exact absurd hl hself

/-- Appending one node keeps `No3Chain` when nothing points at the new
node and the new node is not itself two links above a further link. -/
theorem no3_snoc {ms : List DcStringMeasurement} {n : DcStringMeasurement}
    (hdepth : No3Chain ms)
    (hnoref : ∀ m ∈ ms, m.parentId ≠ some n.id)
    (hself : n.parentId ≠ some n.id)
    (hdeep : ∀ b ∈ ms, ∀ c ∈ ms, ∀ d ∈ ms,
      n.parentId = some b.id → ¬ (b.parentId = some c.id ∧ c.parentId = some d.id)) :
    No3Chain (ms ++ [n]) := by
  have hmem : ∀ y ∈ ms ++ [n], ∀ z ∈ ms ++ [n], y.parentId = some z.id → z ∈ ms := by
    intro y hy z hz hlink
    rcases List.mem_append.mp hz with hz' | hz'
    · exact hz'
    · have hzn : z = n := List.mem_singleton.mp hz'
      rcases List.mem_append.mp hy with hy' | hy'
      · rw [hzn] at hlink
        exact absurd hlink (hnoref y hy')
      · have hyn : y = n := List.mem_singleton.mp hy'
        rw [hzn, hyn] at hlink
        exact absurd hlink hself
  intro a ha b hb c hc d hd h
  obtain ⟨h1, h2, h3⟩ := h
  have hbms : b ∈ ms := hmem a ha b hb h1
  have hcms : c ∈ ms := hmem b (List.mem_append_left _ hbms) c hc h2
  have hdms : d ∈ ms := hmem c (List.mem_append_left _ hcms) d hd h3
  rcases List.mem_append.mp ha with hams | han
  · exact hdepth a hams b hbms c hcms d hdms ⟨h1, h2, h3⟩
  · have han' : a = n := List.mem_singleton.mp han
    subst han'
    exact hdeep b hbms c hcms d hdms h1 ⟨h2, h3⟩

/-- Every generated root has no parent link. -/
theorem generateDc_parentId_none (configs : List InverterConfig)
    (idGen : Nat → Nat → String) :
    ∀ m ∈ generateDcMeasurements configs idGen, m.parentId = none := by
  intro m hm
  simp only [generateDcMeasurements, List.mem_flatMap, List.mem_map] at hm
  obtain ⟨inv, -, i, -, heq⟩ := hm
  rw [← heq]
  rfl

/-- On a duplicate-free-id list, the id lookup of a member finds exactly
that member. -/
theorem find_by_id_eq {ms : List DcStringMeasurement}
    (hids : (ms.map (fun m => m.id)).Nodup) {c : DcStringMeasurement}
    (hc : c ∈ ms) : ms.find? (fun m => m.id == c.id) = some c := by
  cases hf : ms.find? (fun m => m.id == c.id) with
  | none =>
    have h := List.find?_eq_none.mp hf c hc
    simp at h
  | some p =>
    have h1 := List.find?_some hf
    have h2 := List.mem_of_find?_eq_some hf
    rw [beq_iff_eq] at h1
    rw [idInj hids h2 hc h1]

theorem parentDepth_succ (ms : List DcStringMeasurement) (fuel : Nat)
    (cur : DcStringMeasurement) :
    parentDepth ms (fuel + 1) cur =
      match cur.parentId with
      | none => 0
      | some pid =>
        match ms.find? (fun m => m.id == pid) with
        | none => 1
        | some p => 1 + parentDepth ms fuel p := rfl

/-- A node with a resolvable grandparent link computes depth at least 2
under the source's fuel budget. -/
theorem parentDepth_two_of_chain {ms : List DcStringMeasurement}
    (hids : (ms.map (fun m => m.id)).Nodup)
    {parent c d : DcStringMeasurement}
    (hp : parent ∈ ms) (hc : c ∈ ms) (hd : d ∈ ms)
    (h1 : parent.parentId = some c.id) (h2 : c.parentId = some d.id) :
    2 ≤ parentDepth ms (ms.length + 1) parent := by
  obtain ⟨k, hk⟩ : ∃ k, ms.length = k + 1 := by
    have hpos : 0 < ms.length := List.length_pos.mpr (List.ne_nil_of_mem hp)
    exact ⟨ms.length - 1, by omega⟩
  have e1 : parentDepth ms (k + 1 + 1) parent = 1 + parentDepth ms (k + 1) c := by
    rw [parentDepth_succ]
    simp only [h1, find_by_id_eq hids hc]
  have e2 : parentDepth ms (k + 1) c = 1 + parentDepth ms k d := by
    rw [parentDepth_succ]
    simp only [h2, find_by_id_eq hids hd]
  rw [hk, e1, e2]
  omega

/-- C6 (amended): the structural tree operations preserve the forest
invariants — same-inverter parentage and maximum depth 3 — and
`addDcSubstring` refuses to create a child under a node already at
depth 2: regeneration produces an all-root list, `addDcString` appends an
unreferenced root, `addDcSubstring` appends (under a fresh, unreferenced
id) a child of the parent's own inverter only when the parent's depth is
below 2, and `removeDcMeasurement` only deletes.  (`updateDcMeasurement`,
by contrast, applies an arbitrary partial update with no validation and
can break the invariants; see the counterexample.) -/
theorem dcStoreOps_preserve_invariants (ms : List DcStringMeasurement)
    (hids : (ms.map (fun m => m.id)).Nodup)
    (hsame : SameInv ms) (hdepth : No3Chain ms) :
    (∀ configs idGen, SameInv (generateDcMeasurements configs idGen) ∧
       No3Chain (generateDcMeasurements configs idGen)) ∧
    (∀ inverterIndex newId, (∀ m ∈ ms, m.parentId ≠ some newId) →
       SameInv (addDcString ms inverterIndex newId) ∧
       No3Chain (addDcString ms inverterIndex newId)) ∧
    (∀ parentId newId, (∀ m ∈ ms, m.id ≠ newId) →
       (∀ m ∈ ms, m.parentId ≠ some newId) →
       SameInv (addDcSubstring ms parentId newId) ∧
       No3Chain (addDcSubstring ms parentId newId)) ∧
    (∀ parent ∈ ms, ∀ newId, 2 ≤ parentDepth ms (ms.length + 1) parent →
       addDcSubstring ms parent.id newId = ms) ∧
    (∀ id, SameInv (removeDcMeasurement ms id) ∧
       No3Chain (removeDcMeasurement ms id)) := by
  refine ⟨?_, ?_, ?_, ?_, ?_⟩
  · intro configs idGen
    have hnone := generateDc_parentId_none configs idGen
    constructor
    · intro x hx p hp hl
      rw [hnone x hx] at hl
      exact Option.noConfusion hl
    · intro a ha b hb c hc d hd h
      obtain ⟨h1, -, -⟩ := h
      rw [hnone a ha] at h1
      exact Option.noConfusion h1
  · intro inverterIndex newId hnoref
    unfold addDcString
    constructor
    · apply sameInv_snoc hsame
      · intro m hm
        exact hnoref m hm
      · simp [createDcMeasurement]
      · intro p hp hl
        simp [createDcMeasurement] at hl
    · apply no3_snoc hdepth
      · intro m hm
        exact hnoref m hm
      · simp [createDcMeasurement]
      · intro b hb c hc d hd hl
        simp [createDcMeasurement] at hl
  · intro parentId newId hfresh hnoref
    cases hf : ms.find? (fun m => m.id == parentId) with
    | none =>
      have he : addDcSubstring ms parentId newId = ms := by
        unfold addDcSubstring
        rw [hf]
      rw [he]
      exact ⟨hsame, hdepth⟩
    | some parent =>
      have hpmem : parent ∈ ms := List.mem_of_find?_eq_some hf
      have hpid : parent.id = parentId := by
        have h1 := List.find?_some hf
        rwa [beq_iff_eq] at h1
      by_cases hdp : parentDepth ms (ms.length + 1) parent ≥ 2
      · have he : addDcSubstring ms parentId newId = ms := by
          unfold addDcSubstring
          rw [hf]
          dsimp only
          rw [if_pos hdp]
        rw [he]
        exact ⟨hsame, hdepth⟩
      · have he : addDcSubstring ms parentId newId =
            ms ++ [createDcMeasurement newId parent.inverterIndex
              (nextChildLabel ms parentId parent.stringLabel) (some parentId)] := by
          unfold addDcSubstring
          rw [hf]
          dsimp only
          rw [if_neg hdp]
        rw [he]
        constructor
        · apply sameInv_snoc hsame
          · intro m hm
            exact hnoref m hm
          · intro hcon
            have h1 : parentId = newId := by
              simp only [createDcMeasurement] at hcon
              exact Option.some.inj hcon
            exact hfresh parent hpmem (hpid.trans h1)
          · intro p hp hl
            have h2 : parentId = p.id := by
              simp only [createDcMeasurement] at hl
              exact Option.some.inj hl
            have h3 : p = parent := idInj hids hp hpmem (by rw [← h2, hpid])
            rw [h3]
            simp [createDcMeasurement]
        · apply no3_snoc hdepth
          · intro m hm
            exact hnoref m hm
          · intro hcon
            have h1 : parentId = newId := by
              simp only [createDcMeasurement] at hcon
              exact Option.some.inj hcon
            exact hfresh parent hpmem (hpid.trans h1)
          · intro b hb c hc d hd hl hchain
            have h2 : parentId = b.id := by
              simp only [createDcMeasurement] at hl
              exact Option.some.inj hl
            have h3 : b = parent := idInj hids hb hpmem (by rw [← h2, hpid])
            subst h3
            exact absurd
              (parentDepth_two_of_chain hids hpmem hc hd hchain.1 hchain.2) hdp
  · intro parent hpmem newId hdp
    have hf : ms.find? (fun m => m.id == parent.id) = some parent :=
      find_by_id_eq hids hpmem
    unfold addDcSubstring
    rw [hf]
    dsimp only
    rw [if_pos hdp]
  · intro id
    have hsub : removeDcMeasurement ms id ⊆ ms := by
      intro x hx
      simp only [removeDcMeasurement] at hx
      exact List.mem_of_mem_filter hx
    exact ⟨sameInv_subset hsub hsame, no3_subset hsub hdepth⟩

/-- Two root measurements on different inverters. -/
def dcR1 : DcStringMeasurement :=
  { id := "1", parentId := none, inverterIndex := 1, stringLabel := "A"
    panelCount := none, openCircuitVoltage := none, operatingCurrent := none
    stringRiso := none, feedRisoNegative := none, feedRisoPositive := none }

def dcR2 : DcStringMeasurement :=
  { id := "2", parentId := none, inverterIndex := 2, stringLabel := "A"
    panelCount := none, openCircuitVoltage := none, operatingCurrent := none
    stringRiso := none, feedRisoNegative := none, feedRisoPositive := none }

/-- A partial update that re-parents a measurement under id "2". -/
def crossUpdate : DcUpdate :=
  { DcUpdate.empty with parentId := some (some "2") }

/-- C6 counterexample: `updateDcMeasurement` is a store operation, yet
re-parenting an inverter-1 root under an inverter-2 root via an arbitrary
partial update breaks the same-inverter invariant — not every store
operation preserves the forest invariants. -/
theorem updateDcMeasurement_breaks_same_inverter :
    (([dcR1, dcR2].map (fun m => m.id)).Nodup ∧ SameInv [dcR1, dcR2] ∧
      No3Chain [dcR1, dcR2]) ∧
    ¬ SameInv (updateDcMeasurement [dcR1, dcR2] "1" crossUpdate) := by
  decide

/-- A root and its child, both on inverter 1. -/
def dcW1 : DcStringMeasurement :=
  { id := "r", parentId := none, inverterIndex := 1, stringLabel := "A"
    panelCount := none, openCircuitVoltage := none, operatingCurrent := none
    stringRiso := none, feedRisoNegative := none, feedRisoPositive := none }

def dcW2 : DcStringMeasurement :=
  { id := "c", parentId := some "r", inverterIndex := 1, stringLabel := "A.1"
    panelCount := none, openCircuitVoltage := none, operatingCurrent := none
    stringRiso := none, feedRisoNegative := none, feedRisoPositive := none }

theorem dcStoreOps_preserve_invariants_witness :
    ((([dcW1, dcW2].map (fun m => m.id)).Nodup ∧ SameInv [dcW1, dcW2] ∧
       No3Chain [dcW1, dcW2])) ∧
    ((∀ configs idGen, SameInv (generateDcMeasurements configs idGen) ∧
        No3Chain (generateDcMeasurements configs idGen)) ∧
     (∀ inverterIndex newId, (∀ m ∈ [dcW1, dcW2], m.parentId ≠ some newId) →
        SameInv (addDcString [dcW1, dcW2] inverterIndex newId) ∧
        No3Chain (addDcString [dcW1, dcW2] inverterIndex newId)) ∧
     (∀ parentId newId, (∀ m ∈ [dcW1, dcW2], m.id ≠ newId) →
        (∀ m ∈ [dcW1, dcW2], m.parentId ≠ some newId) →
        SameInv (addDcSubstring [dcW1, dcW2] parentId newId) ∧
        No3Chain (addDcSubstring [dcW1, dcW2] parentId newId)) ∧
     (∀ parent ∈ [dcW1, dcW2], ∀ newId,
        2 ≤ parentDepth [dcW1, dcW2] ([dcW1, dcW2].length + 1) parent →
        addDcSubstring [dcW1, dcW2] parent.id newId = [dcW1, dcW2]) ∧
     (∀ id, SameInv (removeDcMeasurement [dcW1, dcW2] id) ∧
        No3Chain (removeDcMeasurement [dcW1, dcW2] id))) :=
  ⟨⟨by decide, by decide, by decide⟩,
   dcStoreOps_preserve_invariants [dcW1, dcW2] (by decide) (by decide) (by decide)⟩

end Yanshuf


















